import Mathlib

/-!
Verification development for the hbak incremental snapshot replication tool.

The definitions below are a shallow embedding of the Rust sources:
  * `src/hbak_common/src/proto.rs`   — snapshot identity, parsing, catalogue
  * `src/hbak_common/src/stream.rs`  — streaming encryption / decryption pipeline
  * `src/hbak_common/src/conn.rs`    — handshake and data synchronisation protocol
  * `src/hbakd/src/main.rs`          — server-side sync planner and receive hooks

Bytes are modelled as natural numbers, byte strings as lists.  External
cryptographic primitives (Argon2id, HMAC-SHA256, the XChaCha20-Poly1305
streaming AEAD) come from third-party crates; they are modelled abstractly,
with their documented contracts stated as structure fields.
-/

/-- Splitting a character list at every occurrence of a separator, keeping
empty pieces, exactly like Rust `str::split(sep)`: the empty string yields
one empty piece. -/
def splitOnChar (c : Char) : List Char → List (List Char)
  | [] => [[]]
  | x :: xs =>
    if x = c then [] :: splitOnChar c xs
    else
      match splitOnChar c xs with
      | [] => [[x]]
      | t :: ts => (x :: t) :: ts

/-- A naive UTC timestamp at second precision, modelling `chrono::NaiveDateTime`
as its calendar fields. -/
structure DateTime where
  year : Int
  month : Nat
  day : Nat
  hour : Nat
  minute : Nat
  second : Nat
deriving DecidableEq, Repr

/-- Order embedding of calendar fields into the integers.  For values whose
fields are within calendar ranges this agrees with chronological order,
which is how `chrono` orders `NaiveDateTime`. -/
def DateTime.key (d : DateTime) : Int :=
  d.second + 60 * (d.minute + 60 * (d.hour + 24 * (d.day + 32 * (d.month + 13 * d.year))))

/-- Chronological strict order on timestamps. -/
def dtLt (a b : DateTime) : Prop := a.key < b.key

/-- Chronological order on timestamps. -/
def dtLe (a b : DateTime) : Prop := a.key ≤ b.key

instance (a b : DateTime) : Decidable (dtLt a b) := by unfold dtLt; infer_instance

instance (a b : DateTime) : Decidable (dtLe a b) := by unfold dtLe; infer_instance

/-- `std::cmp::max` on timestamps: returns the second argument when equal. -/
def dtMax (a b : DateTime) : DateTime := if dtLe a b then b else a

/-- `chrono::NaiveDateTime::MIN`, the sentinel meaning "no snapshot". -/
def dtMIN : DateTime := ⟨-262144, 1, 1, 0, 0, 0⟩

/-- The decimal digit character for `n % 10`. -/
def digitChar (n : Nat) : Char := Char.ofNat (48 + n % 10)

/-- Zero-padded four-digit decimal rendering (the `%Y` directive for years
0 through 9999). -/
def pad4 (n : Nat) : List Char :=
  [digitChar (n / 1000), digitChar (n / 100), digitChar (n / 10), digitChar n]

/-- Zero-padded two-digit decimal rendering (the `%m`, `%d`, `%H`, `%M`, `%S`
directives). -/
def pad2 (n : Nat) : List Char := [digitChar (n / 10), digitChar n]

/-- The `%Y%m%d%H%M%S` rendering of a timestamp, for years 0 through 9999. -/
def fmtTimestamp (d : DateTime) : List Char :=
  pad4 d.year.toNat ++ pad2 d.month ++ pad2 d.day ++ pad2 d.hour ++ pad2 d.minute ++ pad2 d.second

/-- Numeric value of a decimal digit character. -/
def charVal (c : Char) : Nat := c.toNat - 48

/-- Whether a character is a decimal digit. -/
def isDigitChar (c : Char) : Prop := 48 ≤ c.toNat ∧ c.toNat ≤ 57

instance (c : Char) : Decidable (isDigitChar c) := by unfold isDigitChar; infer_instance

/-- Proleptic Gregorian leap year rule used by `chrono`. -/
def isLeapYear (y : Int) : Prop := (y % 4 = 0 ∧ y % 100 ≠ 0) ∨ y % 400 = 0

instance (y : Int) : Decidable (isLeapYear y) := by unfold isLeapYear; infer_instance

/-- Days in a month of the proleptic Gregorian calendar. -/
def daysInMonth (y : Int) (m : Nat) : Nat :=
  if m = 2 then (if isLeapYear y then 29 else 28)
  else if m = 4 ∨ m = 6 ∨ m = 9 ∨ m = 11 then 30
  else 31

/-- Calendar validity, as enforced by `chrono` when parsing.  Leap seconds
(second = 60) are outside the model. -/
def validDate (d : DateTime) : Prop :=
  1 ≤ d.month ∧ d.month ≤ 12 ∧ 1 ≤ d.day ∧ d.day ≤ daysInMonth d.year d.month ∧
    d.hour ≤ 23 ∧ d.minute ≤ 59 ∧ d.second ≤ 59

instance (d : DateTime) : Decidable (validDate d) := by unfold validDate; infer_instance

/-- A timestamp that survives the `%Y%m%d%H%M%S` print/parse cycle: a valid
calendar value with a four-digit non-negative year. -/
def representable (d : DateTime) : Prop := 0 ≤ d.year ∧ d.year ≤ 9999 ∧ validDate d

instance (d : DateTime) : Decidable (representable d) := by unfold representable; infer_instance

/-- Parsing the strict `%Y%m%d%H%M%S` format, modelling
`NaiveDateTime::parse_from_str` on this format string: exactly fourteen
digits, validated as a calendar date. -/
def parseTimestamp (l : List Char) : Option DateTime :=
  match l with
  | [y3, y2, y1, y0, m1, m0, d1, d0, h1, h0, i1, i0, s1, s0] =>
    if [y3, y2, y1, y0, m1, m0, d1, d0, h1, h0, i1, i0, s1, s0].all
        (fun c => decide (isDigitChar c)) then
      let d : DateTime :=
        { year := Int.ofNat (((charVal y3 * 10 + charVal y2) * 10 + charVal y1) * 10 + charVal y0)
          month := charVal m1 * 10 + charVal m0
          day := charVal d1 * 10 + charVal d0
          hour := charVal h1 * 10 + charVal h0
          minute := charVal i1 * 10 + charVal i0
          second := charVal s1 * 10 + charVal s0 }
      if validDate d then some d else none
    else none
  | _ => none

/-- Errors from `SnapshotParseError` in `src/hbak_common/src/error.rs`. -/
inductive SnapshotParseError where
  | missingNodeName
  | missingSubvolume
  | missingType
  | missingTimeTaken
  | invalidType (ty : String)
  | noFileName
  | invalidUnicode
  | malformedTimeTaken
deriving DecidableEq, Repr

/-- Errors from `VolumeParseError` in `src/hbak_common/src/error.rs`. -/
inductive VolumeParseError where
  | missingNodeName
  | missingSubvolume
deriving DecidableEq, Repr

/-- `Snapshot` from `src/hbak_common/src/proto.rs`: node name, subvolume,
kind flag and capture timestamp. -/
structure Snapshot where
  node_name : String
  subvol : String
  is_incremental : Bool
  taken : DateTime
deriving DecidableEq, Repr

/-- `Volume` from `src/hbak_common/src/proto.rs`. -/
structure Volume where
  node_name : String
  subvol : String
deriving DecidableEq, Repr

/-- `Snapshot::is_of_volume`. -/
def Snapshot.is_of_volume (s : Snapshot) (v : Volume) : Prop :=
  s.node_name = v.node_name ∧ s.subvol = v.subvol

instance (s : Snapshot) (v : Volume) : Decidable (s.is_of_volume v) := by
  unfold Snapshot.is_of_volume; infer_instance

/-- The `Display` implementation for `Snapshot`:
`{node}_{subvol}_{"full"|"incr"}_{%Y%m%d%H%M%S}`. -/
def Snapshot.toStr (s : Snapshot) : String :=
  s.node_name ++ "_" ++ s.subvol ++ "_" ++ (if s.is_incremental then "incr" else "full") ++
    "_" ++ String.mk (fmtTimestamp s.taken)

/-- The `Display` implementation for `Volume`: `{node}_{subvol}`. -/
def Volume.toStr (v : Volume) : String := v.node_name ++ "_" ++ v.subvol

/-- `TryFrom<&str> for Snapshot`: split on underscores, take the first four
tokens in order (ignoring any extra tokens, as the iterator is only advanced
four times), decode kind and timestamp. -/
def Snapshot.fromString (v : String) : Except SnapshotParseError Snapshot :=
  match splitOnChar '_' v.data with
  | [] => .error .missingNodeName
  | [_] => .error .missingSubvolume
  | [_, _] => .error .missingType
  | [_, _, _] => .error .missingTimeTaken
  | node :: subvol :: ty :: ts :: _ =>
    let k : Except SnapshotParseError Bool :=
      if ty = "full".data then .ok false
      else if ty = "incr".data then .ok true
      else .error (.invalidType (String.mk ty))
    match k with
    | .error e => .error e
    | .ok isIncr =>
      match parseTimestamp ts with
      | none => .error .malformedTimeTaken
      | some taken => .ok ⟨String.mk node, String.mk subvol, isIncr, taken⟩

/-- `TryFrom<&str> for Volume`: the two-token analogue. -/
def Volume.fromString (v : String) : Except VolumeParseError Volume :=
  match splitOnChar '_' v.data with
  | [] => .error .missingNodeName
  | [_] => .error .missingSubvolume
  | node :: subvol :: _ => .ok ⟨String.mk node, String.mk subvol⟩

/-- Whether a string starts with `/` (an absolute Unix path). -/
def headIsSlash (s : String) : Bool :=
  match s.data with
  | c :: _ => c == '/'
  | [] => false

/-- Whether a string ends with `/`. -/
def lastIsSlash (s : String) : Bool :=
  match s.data.getLast? with
  | some c => c == '/'
  | none => false

/-- `std::path::PathBuf::push` on Unix: pushing an absolute path replaces the
current path, otherwise a `/` separator is inserted unless already present. -/
def pathJoin (dir s : String) : String :=
  if headIsSlash s then s
  else if dir = "" then s
  else if lastIsSlash dir then dir ++ s
  else dir ++ "/" ++ s

/-- `std::path::Path::file_name` on Unix: the final non-empty, non-`.`
component; `None` when the path is empty, a root, or ends in `..`. -/
def pathFileName (p : String) : Option String :=
  let comps := (splitOnChar '/' p.data).filter (fun c => !(c = [] ∨ c = ['.']))
  match comps.getLast? with
  | none => none
  | some c => if c = ['.', '.'] then none else some (String.mk c)

/-- `TryFrom<&Path> for Snapshot`: extract the file name, then parse it. -/
def Snapshot.fromPath (p : String) : Except SnapshotParseError Snapshot :=
  match pathFileName p with
  | none => .error .noFileName
  | some name => Snapshot.fromString name

/-- `SNAPSHOT_DIR_S` from `src/hbak_common/src/proto.rs`. -/
def SNAPSHOT_DIR_S : String := "/mnt/hbakd/snapshots"

/-- `BACKUP_DIR_S` from `src/hbak_common/src/proto.rs`. -/
def BACKUP_DIR_S : String := "/mnt/hbakd/backups"

/-- `Snapshot::backup_path` in server mode. -/
def Snapshot.backupPathS (s : Snapshot) : String := pathJoin BACKUP_DIR_S s.toStr

/-- `Snapshot::streaming_path` in server mode: the backup path with a `.part`
marker appended. -/
def Snapshot.streamingPathS (s : Snapshot) : String :=
  pathJoin BACKUP_DIR_S (s.toStr ++ ".part")

/-- `CHUNKSIZE` from `src/hbak_common/src/stream.rs` (4096 KiB). -/
def CHUNKSIZE : Nat := 4096 * 1024

/-- Idealized model of the per-stream cryptography used by
`SnapshotStream` / `RecoveryStream`: the Argon2id key derivation
`hash_argon2id(salt = nonce, passphrase)` and the XChaCha20-Poly1305 BE32
streaming AEAD.  `seal k i last m` is `encrypt_next` (`last = false`) or
`encrypt_last` (`last = true`) at stream position `i`; `sopen` is the
corresponding `decrypt_next` / `decrypt_last`.  The `Prop` fields state the
AEAD contract this code relies on: each sealed chunk carries a 16-byte tag,
opening inverts sealing, opening succeeds only on exact seal images, and no
seal image is a prefix of a different seal image (authenticity of the
position counter, the "last" flag and the chunk contents). -/
structure StreamCipher where
  keyOf : List Nat → List Nat → List Nat
  sealC : List Nat → Nat → Bool → List Nat → List Nat
  openC : List Nat → Nat → Bool → List Nat → Option (List Nat)
  seal_length : ∀ k i l m, (sealC k i l m).length = m.length + 16
  sopen_seal : ∀ k i l m, openC k i l (sealC k i l m) = some m
  sopen_image : ∀ k i l c m, openC k i l c = some m → c = sealC k i l m
  seal_unext : ∀ k i l l' m m' t, sealC k i l m ++ t = sealC k i l' m' → l = l' ∧ m = m'

/-- The ciphertext body produced by `SnapshotStream::fill_buf` pulling a
non-empty plaintext `p` to exhaustion: repeatedly take a chunk of at most
`CHUNKSIZE` bytes; while input remains afterwards seal it with
`encrypt_next`, the final chunk with `encrypt_last`.  `fuel` bounds the
recursion; `p.length` suffices. -/
def sealStream (c : StreamCipher) (k : List Nat) : Nat → Nat → List Nat → List Nat
  | 0, _, _ => []
  | fuel + 1, i, p =>
    if p.length ≤ CHUNKSIZE then c.sealC k i true p
    else c.sealC k i false (p.take CHUNKSIZE) ++ sealStream c k fuel (i + 1) (p.drop CHUNKSIZE)

/-- The full output of a `SnapshotStream` over plaintext `p`: the 19-byte
random nonce followed by the sealed chunks; an empty plaintext emits the
nonce alone (`fill_buf` finds the inner reader empty and seals nothing). -/
def snapshotStreamOutput (c : StreamCipher) (nonce pw p : List Nat) : List Nat :=
  if p.isEmpty then nonce else nonce ++ sealStream c (c.keyOf nonce pw) p.length 0 p

/-- The mutable state of a `RecoveryStream`: the plaintext accepted so far by
the inner writer, the decryptor (key and chunk counter) once the nonce has
been read, the byte buffer and the closed flag. -/
structure RecState where
  inner : List Nat
  cipher : Option (List Nat × Nat)
  buf : List Nat
  closed : Bool
deriving DecidableEq, Repr

/-- Errors surfaced by the `RecoveryStream` model: the 'broken pipe' error on
use after close, and decryption failure (`chacha20poly1305::Error`). -/
inductive RecErr where
  | brokenPipe
  | decryptFailed
deriving DecidableEq, Repr

/-- One iteration of the byte loop in `RecoveryStream::write`: with an
initialized cipher, a full `16 + CHUNKSIZE` buffer is drained and opened with
`decrypt_next` before the byte is pushed; without a cipher, once 19 bytes are
buffered they are consumed as the nonce and the key is derived. -/
def recWriteByte (c : StreamCipher) (pw : List Nat) (s : RecState) (b : Nat) :
    Except RecErr RecState :=
  match s.cipher with
  | some (k, i) =>
    if 16 + CHUNKSIZE ≤ s.buf.length then
      match c.openC k i false (s.buf.take (16 + CHUNKSIZE)) with
      | some plain =>
        .ok ⟨s.inner ++ plain, some (k, i + 1), s.buf.drop (16 + CHUNKSIZE) ++ [b], s.closed⟩
      | none => .error .decryptFailed
    else .ok ⟨s.inner, some (k, i), s.buf ++ [b], s.closed⟩
  | none =>
    if 19 ≤ s.buf.length then
      .ok ⟨s.inner, some (c.keyOf (s.buf.take 19) pw, 0), s.buf.drop 19 ++ [b], s.closed⟩
    else .ok ⟨s.inner, none, s.buf ++ [b], s.closed⟩

/-- The byte loop of `RecoveryStream::write` over a whole input slice. -/
def recWriteBytes (c : StreamCipher) (pw : List Nat) : RecState → List Nat → Except RecErr RecState
  | s, [] => .ok s
  | s, b :: bs =>
    match recWriteByte c pw s b with
    | .ok s' => recWriteBytes c pw s' bs
    | .error e => .error e

/-- `RecoveryStream::write`: fails with a broken-pipe error once closed. -/
def recWrite (c : StreamCipher) (pw : List Nat) (s : RecState) (bs : List Nat) :
    Except RecErr RecState :=
  if s.closed then .error .brokenPipe else recWriteBytes c pw s bs

/-- `RecoveryStream::close`: marks the stream closed, pulls at most
`16 + CHUNKSIZE` buffered bytes and opens them with `decrypt_last`; with an
uninitialized cipher nothing needs to be written. -/
def recClose (c : StreamCipher) (s : RecState) : Except RecErr RecState :=
  if s.closed then .error .brokenPipe
  else
    match s.cipher with
    | some (k, i) =>
      match c.openC k i true (s.buf.take (16 + CHUNKSIZE)) with
      | some plain => .ok ⟨s.inner ++ plain, none, s.buf.drop (16 + CHUNKSIZE), true⟩
      | none => .error .decryptFailed
    | none => .ok ⟨s.inner, none, s.buf, true⟩

/-- The initial state of a freshly constructed `RecoveryStream`. -/
def recInit : RecState := ⟨[], none, [], false⟩

/-- Writing a complete byte sequence into a fresh `RecoveryStream` and
closing it; on success, the bytes received by the inner writer. -/
def recProcess (c : StreamCipher) (pw input : List Nat) : Except RecErr (List Nat) :=
  match recWrite c pw recInit input with
  | .error e => .error e
  | .ok s =>
    match recClose c s with
    | .error e => .error e
    | .ok s' => .ok s'.inner

/-- A concrete witness instance of the AEAD contract: the ciphertext starts
with the chunk length and last-flag, followed by the chunk and fourteen
padding bytes (16 bytes of expansion in total, like a Poly1305 tag). -/
def refSealC (_k : List Nat) (_i : Nat) (l : Bool) (m : List Nat) : List Nat :=
  m.length :: (if l then 1 else 0) :: (m ++ List.replicate 14 0)

/-- Opening for `refSealC`: succeeds exactly on well-formed images. -/
def refOpenC (_k : List Nat) (_i : Nat) (l : Bool) (c : List Nat) : Option (List Nat) :=
  match c with
  | n :: fl :: rest =>
    if rest.length = n + 14 ∧ fl = (if l then 1 else 0) ∧ rest.drop n = List.replicate 14 0 then
      some (rest.take n)
    else none
  | _ => none

/-- The witness stream cipher. -/
def refCipher : StreamCipher where
  keyOf n p := n ++ p
  sealC := refSealC
  openC := refOpenC
  seal_length := by intro k i l m; simp [refSealC]
  sopen_seal := by
    intro k i l m
    simp [refOpenC, refSealC, List.drop_left, List.take_left]
  sopen_image := by
    intro k i l c p h
    match c with
    | [] => simp [refOpenC] at h
    | [n] => simp [refOpenC] at h
    | n :: fl :: rest =>
      rw [refOpenC] at h
      by_cases hc : rest.length = n + 14 ∧ fl = (if l then 1 else 0) ∧
          rest.drop n = List.replicate 14 0
      · obtain ⟨hlen, hfl, hdrop⟩ := hc
        rw [if_pos ⟨hlen, hfl, hdrop⟩] at h
        have hp : p = rest.take n := by injection h with h'; exact h'.symm
        subst hp
        have hplen : (rest.take n).length = n := by
          rw [List.length_take]; omega
        have hrest : rest.take n ++ List.replicate 14 0 = rest := by
          conv_rhs => rw [← List.take_append_drop n rest]
          rw [hdrop]
        rw [refSealC, hplen, ← hfl, hrest]
      · rw [if_neg hc] at h
        exact absurd h (by simp)
  seal_unext := by
    intro k i l l' m m' t h
    rw [refSealC, refSealC] at h
    simp only [List.cons_append, List.cons.injEq] at h
    obtain ⟨hn, hf, hr⟩ := h
    have hlen := congrArg List.length hr
    simp only [List.length_append, List.length_replicate] at hlen
    have ht : t = [] := List.eq_nil_of_length_eq_zero (by omega)
    subst ht
    simp only [List.append_nil] at hr
    refine ⟨?_, List.append_cancel_right hr⟩
    cases l <;> cases l' <;> simp_all

/-- Writing then closing, the composite used by the round-trip proofs. -/
def recWriteClose (c : StreamCipher) (pw : List Nat) (s : RecState) (bs : List Nat) :
    Except RecErr RecState :=
  match recWriteBytes c pw s bs with
  | .ok s' => recClose c s'
  | .error e => .error e

/-- Monadic map over `Except`, used to model fallible iteration with `?`. -/
def exceptMapM {α β E : Type} (f : α → Except E β) : List α → Except E (List β)
  | [] => .ok []
  | a :: as =>
    match f a with
    | .error e => .error e
    | .ok b =>
      match exceptMapM f as with
      | .error e => .error e
      | .ok bs => .ok (b :: bs)

/-- The catalogue-relevant errors from `LocalNodeError` in
`src/hbak_common/src/error.rs`. -/
inductive LocalNodeError where
  | foreignSubvolume (subvol : String)
  | noFullSnapshot (subvol : String)
  | noIncrementalSnapshot (subvol : String)
  | noFullBackup (volume : Volume)
  | noIncrementalBackup (volume : Volume)
  | parseFailure (e : SnapshotParseError)
deriving DecidableEq, Repr

/-- The catalogue state of a `LocalNode`: its configured name and owned
subvolumes, and the file names found in the snapshot and backup directories.
Directory entry names are the final path component, so they contain no `/`
and `Snapshot::try_from(&Path)` reduces to parsing the name itself. -/
structure LocalNode where
  node_name : String
  subvols : List String
  snapshotDirEntries : List String
  backupDirEntries : List String
deriving DecidableEq, Repr

/-- `LocalNode::owns_subvol`. -/
def LocalNode.owns_subvol (ln : LocalNode) (subvol : String) : Prop := subvol ∈ ln.subvols

instance (ln : LocalNode) (s : String) : Decidable (ln.owns_subvol s) := by
  unfold LocalNode.owns_subvol; infer_instance

/-- `LocalNode::all_snapshots`: rejects a filter naming a subvolume the node
does not own, parses every directory entry (propagating parse errors), and
keeps the entries matching the filter. -/
def LocalNode.all_snapshots (ln : LocalNode) (subvol : Option String) :
    Except LocalNodeError (List Snapshot) :=
  match subvol with
  | some sv =>
    if sv ∈ ln.subvols then
      match exceptMapM Snapshot.fromString ln.snapshotDirEntries with
      | .error e => .error (.parseFailure e)
      | .ok snaps => .ok (snaps.filter (fun s => decide (s.subvol = sv)))
    else .error (.foreignSubvolume sv)
  | none =>
    match exceptMapM Snapshot.fromString ln.snapshotDirEntries with
    | .error e => .error (.parseFailure e)
    | .ok snaps => .ok snaps

/-- `std::path::Path::extension` on a file name: the portion after the last
dot, unless the name has no dot or only a single leading dot. -/
def rustExtension (name : String) : Option String :=
  match splitOnChar '.' name.data with
  | [] => none
  | [_] => none
  | [[], _] => none
  | ps => some (String.mk (ps.getLastD []))

/-- `LocalNode::all_backups`: skips entries carrying the `.part` marker
without parsing them, parses the rest, and keeps those of the requested
volume. -/
def LocalNode.all_backups (ln : LocalNode) (volume : Option Volume) :
    Except LocalNodeError (List Snapshot) :=
  match exceptMapM Snapshot.fromString
      (ln.backupDirEntries.filter (fun e => !(rustExtension e == some "part"))) with
  | .error e => .error (.parseFailure e)
  | .ok backups =>
    .ok (backups.filter (fun b =>
      match volume with
      | some v => decide (b.is_of_volume v)
      | none => true))

/-- One step of `Iterator::max_by_key`: later elements win ties. -/
def rmStep (acc : Option Snapshot) (s : Snapshot) : Option Snapshot :=
  match acc with
  | none => some s
  | some a => if dtLe a.taken s.taken then some s else some a

/-- `Iterator::max_by_key(|snapshot| snapshot.taken())`: the maximum-`taken`
element, the last one in iteration order when tied. -/
def rustMaxByTaken (l : List Snapshot) : Option Snapshot := l.foldl rmStep none

/-- `LocalNode::latest_snapshot_full`. -/
def LocalNode.latest_snapshot_full (ln : LocalNode) (subvol : String) :
    Except LocalNodeError Snapshot :=
  match ln.all_snapshots (some subvol) with
  | .error e => .error e
  | .ok ss =>
    match rustMaxByTaken (ss.filter (fun s => !s.is_incremental)) with
    | some s => .ok s
    | none => .error (.noFullSnapshot subvol)

/-- `LocalNode::snapshot_full_after`. -/
def LocalNode.snapshot_full_after (ln : LocalNode) (subvol : String) (after : DateTime) :
    Except LocalNodeError (List Snapshot) :=
  match ln.all_snapshots (some subvol) with
  | .error e => .error e
  | .ok ss => .ok (ss.filter (fun s => !s.is_incremental && decide (dtLt after s.taken)))

/-- `LocalNode::snapshot_incremental_after`. -/
def LocalNode.snapshot_incremental_after (ln : LocalNode) (subvol : String) (after : DateTime) :
    Except LocalNodeError (List Snapshot) :=
  match ln.all_snapshots (some subvol) with
  | .error e => .error e
  | .ok ss => .ok (ss.filter (fun s => s.is_incremental && decide (dtLt after s.taken)))

/-- `LocalNode::latest_backup_full`. -/
def LocalNode.latest_backup_full (ln : LocalNode) (v : Volume) :
    Except LocalNodeError Snapshot :=
  match ln.all_backups (some v) with
  | .error e => .error e
  | .ok bs =>
    match rustMaxByTaken (bs.filter (fun b => !b.is_incremental)) with
    | some s => .ok s
    | none => .error (.noFullBackup v)

/-- `LocalNode::backup_full_after`. -/
def LocalNode.backup_full_after (ln : LocalNode) (v : Volume) (after : DateTime) :
    Except LocalNodeError (List Snapshot) :=
  match ln.all_backups (some v) with
  | .error e => .error e
  | .ok bs => .ok (bs.filter (fun b => !b.is_incremental && decide (dtLt after b.taken)))

/-- `LocalNode::backup_incremental_after`. -/
def LocalNode.backup_incremental_after (ln : LocalNode) (v : Volume) (after : DateTime) :
    Except LocalNodeError (List Snapshot) :=
  match ln.all_backups (some v) with
  | .error e => .error e
  | .ok bs => .ok (bs.filter (fun b => b.is_incremental && decide (dtLt after b.taken)))

/-- `LocalNode::all_full_after`: snapshot listing for owned volumes, backup
listing otherwise. -/
def LocalNode.all_full_after (ln : LocalNode) (v : Volume) (after : DateTime) :
    Except LocalNodeError (List Snapshot) :=
  if v.node_name = ln.node_name then ln.snapshot_full_after v.subvol after
  else ln.backup_full_after v after

/-- `LocalNode::all_incremental_after`. -/
def LocalNode.all_incremental_after (ln : LocalNode) (v : Volume) (after : DateTime) :
    Except LocalNodeError (List Snapshot) :=
  if v.node_name = ln.node_name then ln.snapshot_incremental_after v.subvol after
  else ln.backup_incremental_after v after

/-- The selection performed by `LocalNode::parent_of` once the subvolume's
snapshots are listed: the maximum-`taken` of the latest full and latest
incremental snapshots strictly older than the child; `NoFullSnapshot` when
no full snapshot is older.  Ties go to the incremental, as `max_by_key`
returns the last maximal element of `[Some(previous_full),
previous_incremental]`. -/
def parentCore (child : Snapshot) (snaps : List Snapshot) : Except LocalNodeError Snapshot :=
  match rustMaxByTaken ((snaps.filter (fun s => !s.is_incremental)).filter
      (fun s => decide (dtLt s.taken child.taken))) with
  | none => .error (.noFullSnapshot child.subvol)
  | some previous_full =>
    match rustMaxByTaken ((snaps.filter (fun s => s.is_incremental)).filter
        (fun s => decide (dtLt s.taken child.taken))) with
    | none => .ok previous_full
    | some previous_incremental =>
      .ok (if dtLe previous_full.taken previous_incremental.taken then previous_incremental
        else previous_full)

/-- `LocalNode::parent_of`: lists the snapshots of the child's subvolume and
applies the selection above. -/
def LocalNode.parent_of (ln : LocalNode) (child : Snapshot) :
    Except LocalNodeError Snapshot :=
  match ln.all_snapshots (some child.subvol) with
  | .error e => .error e
  | .ok snaps => parentCore child snaps

/-- `LatestSnapshots` from `src/hbak_common/src/proto.rs`. -/
structure LatestSnapshots where
  last_full : DateTime
  last_incremental : DateTime
deriving DecidableEq, Repr

/-- `RemoteNodeAuth` from `src/hbak_common/src/config.rs`. -/
structure RemoteNodeAuth where
  node_name : String
  verifier : List Nat
  key : List Nat
  push : List Volume
  pull : List Volume
deriving DecidableEq, Repr

/-- The per-volume transmit selection of `handle_client` in
`src/hbakd/src/main.rs`: for a peer-owned volume, the single latest full
backup if strictly newer than the remote tip, and the incremental backups
past the `max(max(remote last_full, local latest full backup), remote
last_incremental)` cutoff; otherwise all fulls and incrementals past the
respective remote tips. -/
def volContrib (ln : LocalNode) (auth : RemoteNodeAuth) (v : Volume) (tips : LatestSnapshots) :
    Except LocalNodeError (List Snapshot) :=
  match (if v.node_name = auth.node_name then
      match ln.latest_backup_full v with
      | .error e => .error e
      | .ok s => .ok (if dtLt tips.last_full s.taken then [s] else [])
    else ln.all_full_after v tips.last_full) with
  | .error e => .error e
  | .ok fulls =>
    match (if v.node_name = auth.node_name then
        match ln.latest_backup_full v with
        | .error e => .error e
        | .ok lbf =>
          ln.backup_incremental_after v
            (dtMax (dtMax tips.last_full lbf.taken) tips.last_incremental)
      else ln.all_incremental_after v tips.last_incremental) with
    | .error e => .error e
    | .ok incr => .ok (fulls ++ incr)

/-- The transmit batch assembled by `handle_client`: iterate the remote
`SyncInfo` volumes, keep those in the pull grant or owned by the peer, and
concatenate their contributions in order. -/
def buildTx (ln : LocalNode) (auth : RemoteNodeAuth) :
    List (Volume × LatestSnapshots) → Except LocalNodeError (List Snapshot)
  | [] => .ok []
  | (v, tips) :: rest =>
    if v ∈ auth.pull ∨ v.node_name = auth.node_name then
      match volContrib ln auth v tips with
      | .error e => .error e
      | .ok cc =>
        match buildTx ln auth rest with
        | .error e => .error e
        | .ok r => .ok (cc ++ r)
    else buildTx ln auth rest

/-- A concrete catalogue used by witnesses: one full and one incremental
snapshot of the owned subvolume `home`. -/
def exNode : LocalNode :=
  ⟨"local", ["home"],
    ["local_home_full_20240101000000", "local_home_incr_20240102000000"], []⟩

/-- A concrete incremental snapshot newer than both catalogue entries. -/
def exChild : Snapshot := ⟨"local", "home", true, ⟨2024, 1, 3, 0, 0, 0⟩⟩

/-- The parse of `exNode`'s snapshot directory. -/
def exEntries : List Snapshot :=
  [⟨"local", "home", false, ⟨2024, 1, 1, 0, 0, 0⟩⟩,
    ⟨"local", "home", true, ⟨2024, 1, 2, 0, 0, 0⟩⟩]

/-- A concrete server catalogue used by the C5 witness: two backups of the
peer-owned volume, no local snapshots. -/
def exPeerNode : LocalNode :=
  ⟨"srv", [], [], ["peer_data_full_20240101000000", "peer_data_incr_20240102000000"]⟩

/-- A concrete grant for the peer `peer` with empty push and pull sets. -/
def exAuth : RemoteNodeAuth := ⟨"peer", [], [], [], []⟩

/-- The peer-owned volume of the C5 witness. -/
def exVol : Volume := ⟨"peer", "data"⟩

/-- Remote tips claiming no snapshots (restore case). -/
def exTips : LatestSnapshots := ⟨dtMIN, dtMIN⟩

/-- The remote SyncInfo of the C5 witness. -/
def exRemote : List (Volume × LatestSnapshots) := [(exVol, exTips)]

/-- The expected outbound batch of the C5 witness. -/
def exTx : List Snapshot :=
  [⟨"peer", "data", false, ⟨2024, 1, 1, 0, 0, 0⟩⟩,
    ⟨"peer", "data", true, ⟨2024, 1, 2, 0, 0, 0⟩⟩]

/-- `RemoteError` from `src/hbak_common/src/error.rs`.  Note: there is no
`TxError` variant in the source. -/
inductive RemoteError where
  | accessDenied
  | unauthorized
  | immutable
  | illegalTransition
  | alreadyStreaming
  | notStreaming
  | rxError
deriving DecidableEq, Repr

/-- The `NetworkError` outcomes relevant to the model: protocol violations,
wire-transported remote errors, and local I/O errors (codes abstracted). -/
inductive NetworkError where
  | illegalTransition
  | remote (e : RemoteError)
  | ioErr (code : Nat)
deriving DecidableEq, Repr

/-- `Hello` from `src/hbak_common/src/message.rs`. -/
structure Hello where
  node_name : String
  challenge : List Nat
  nonce : List Nat
deriving DecidableEq, Repr

/-- `ServerAuth` from `src/hbak_common/src/message.rs`. -/
structure ServerAuth where
  verifier : List Nat
  challenge : List Nat
  proof : List Nat
deriving DecidableEq, Repr

/-- `ClientAuth` from `src/hbak_common/src/message.rs`. -/
structure ClientAuth where
  proof : List Nat
deriving DecidableEq, Repr

instance {E α : Type} [DecidableEq E] [DecidableEq α] : DecidableEq (Except E α) := fun a b => by
  cases a <;> cases b
  · rename_i e e'
    exact decidable_of_iff (e = e') (by simp)
  · exact isFalse (by simp)
  · exact isFalse (by simp)
  · rename_i x y
    exact decidable_of_iff (x = y) (by simp)

/-- `CryptoMessage` from `src/hbak_common/src/message.rs`. -/
inductive CryptoMessage where
  | hello (h : Hello)
  | serverAuth (r : Except RemoteError ServerAuth)
  | clientAuth (r : Except RemoteError ClientAuth)
  | encrypt (r : Except RemoteError Unit)
  | errorMsg (e : RemoteError)
deriving DecidableEq, Repr

/-- The external cryptographic primitives of `src/hbak_common/src/system.rs`:
`hash_argon2id(salt, passphrase)` and `hash_hmac(secret, data)`, abstracted
as total functions. -/
structure CryptoPrims where
  argon : List Nat → List Nat → List Nat
  hmac : List Nat → List Nat → List Nat

/-- `system::derive_key`: Argon2id keyed by the verifier as salt, then an
HMAC of the verifier under the derived key material. -/
def deriveKey (prims : CryptoPrims) (verifier pw : List Nat) : List Nat :=
  prims.hmac (prims.argon verifier pw) verifier

/-- The data carried into `StreamConn::try_from_conn`: shared key, nonce and
the remote node name.  Existence of such a value models a constructed
`StreamConn`. -/
structure SConn where
  key : List Nat
  nonce : List Nat
  remoteName : String
deriving DecidableEq, Repr

/-- `AuthConn::secure_stream`: sends `Hello`, checks the server proof
against `HMAC(derive_key(verifier, passphrase), client_challenge)` in
constant time, completes or denies accordingly.  The received messages are
the two inputs; the output is the list of sent messages and the result. -/
def clientSecureStream (prims : CryptoPrims) (nodeName remoteName : String)
    (challenge nonce pw : List Nat) (m1 m2 : CryptoMessage) :
    List CryptoMessage × Except NetworkError SConn :=
  let hello : CryptoMessage := .hello ⟨nodeName, challenge, nonce⟩
  match m1 with
  | .serverAuth sa =>
    match sa with
    | .error e => ([hello], .error (.remote e))
    | .ok sa =>
      let key := deriveKey prims sa.verifier pw
      let serverProof := prims.hmac key challenge
      if sa.proof = serverProof then
        let proof := prims.hmac key sa.challenge
        match m2 with
        | .encrypt (.ok _) =>
          ([hello, .clientAuth (.ok ⟨proof⟩)], .ok ⟨key, nonce, remoteName⟩)
        | .encrypt (.error e) =>
          ([hello, .clientAuth (.ok ⟨proof⟩)], .error (.remote e))
        | _ =>
          ([hello, .clientAuth (.ok ⟨proof⟩), .errorMsg .illegalTransition],
            .error .illegalTransition)
      else
        ([hello, .clientAuth (.error .accessDenied)], .error (.remote .unauthorized))
  | _ => ([hello, .clientAuth (.error .illegalTransition)], .error .illegalTransition)

/-- `AuthServ::secure_stream`: looks up a grant for the client name, replies
with the verifier, a fresh challenge and `HMAC(grant.key,
client_challenge)`, then verifies the client proof against
`HMAC(grant.key, server_challenge)`. -/
def serverSecureStream (prims : CryptoPrims) (authStorage : List RemoteNodeAuth)
    (challenge : List Nat) (m1 m2 : CryptoMessage) :
    List CryptoMessage × Except NetworkError (SConn × RemoteNodeAuth) :=
  match m1 with
  | .hello h =>
    match authStorage.find? (fun rna => rna.node_name == h.node_name) with
    | some auth =>
      let clientProof := prims.hmac auth.key challenge
      let proof := prims.hmac auth.key h.challenge
      let sent1 : List CryptoMessage := [.serverAuth (.ok ⟨auth.verifier, challenge, proof⟩)]
      match m2 with
      | .clientAuth ca =>
        match ca with
        | .ok ca =>
          if ca.proof = clientProof then
            (sent1 ++ [.encrypt (.ok ())], .ok (⟨auth.key, h.nonce, h.node_name⟩, auth))
          else
            (sent1 ++ [.encrypt (.error .accessDenied)], .error (.remote .unauthorized))
        | .error e => (sent1, .error (.remote e))
      | _ => (sent1 ++ [.encrypt (.error .illegalTransition)], .error .illegalTransition)
    | none => ([.serverAuth (.error .accessDenied)], .error (.remote .unauthorized))
  | _ => ([.serverAuth (.error .illegalTransition)], .error .illegalTransition)

/-- `StreamMessage` from `src/hbak_common/src/message.rs`; the `SyncInfo`
map is carried as an association list, the `Target` wrapper is inlined. -/
inductive StreamMessage where
  | syncInfo (volumes : List (Volume × LatestSnapshots))
  | replicate (snapshot : Snapshot)
  | stream (r : Except RemoteError Unit)
  | chunk (data : List Nat)
  | endMsg (r : Except RemoteError Unit)
  | done
  | errorMsg (e : RemoteError)
deriving DecidableEq, Repr

/-- A file system as an association of paths to byte contents. -/
abbrev FS := List (String × List Nat)

/-- Contents of the file at a path, when present. -/
def fsLookup (fs : FS) (p : String) : Option (List Nat) :=
  match fs.find? (fun entry => entry.1 == p) with
  | some entry => some entry.2
  | none => none

/-- `Path::exists`. -/
def fsExists (fs : FS) (p : String) : Bool := (fsLookup fs p).isSome

/-- Create or overwrite a file with given contents. -/
def fsSet (fs : FS) (p : String) (c : List Nat) : FS :=
  (p, c) :: fs.filter (fun entry => !(entry.1 == p))

/-- Remove a file. -/
def fsRemove (fs : FS) (p : String) : FS := fs.filter (fun entry => !(entry.1 == p))

/-- `Write::write_all` on an open file: append bytes. -/
def fsAppend (fs : FS) (p : String) (bytes : List Nat) : FS :=
  match fsLookup fs p with
  | some c => fsSet fs p (c ++ bytes)
  | none => fsSet fs p bytes

/-- The configuration seen by the `hbakd` receive hooks: the local node name
and the peer's permitted push volumes. -/
structure RxConfig where
  localName : String
  push : List Volume
deriving DecidableEq, Repr

/-- The push-authorization test of `rx_setup` in `src/hbakd/src/main.rs`:
some permitted push volume matches the snapshot and is not owned by the
local node itself. -/
def pushAuthorized (cfg : RxConfig) (s : Snapshot) : Prop :=
  ∃ v ∈ cfg.push, s.is_of_volume v ∧ v.node_name ≠ cfg.localName

instance (cfg : RxConfig) (s : Snapshot) : Decidable (pushAuthorized cfg s) := by
  unfold pushAuthorized; infer_instance

/-- `rx_setup` from `src/hbakd/src/main.rs`: deny unauthorized pushes, then
refuse to overwrite an existing backup with `Immutable`, and only then
create the `.part` streaming file (file creation is modelled as always
succeeding; an I/O failure there would yield `RxError`). -/
def rxSetup (cfg : RxConfig) (fs : FS) (s : Snapshot) : Except RemoteError (FS × String) :=
  if ¬ pushAuthorized cfg s then .error .accessDenied
  else if fsExists fs s.backupPathS then .error .immutable
  else .ok (fsSet fs s.streamingPathS [], s.streamingPathS)

/-- `rx_finish` from `src/hbakd/src/main.rs`: rename the `.part` file onto
the backup path; a missing source is an `RxError`. -/
def rxFinish (fs : FS) (s : Snapshot) : Except RemoteError FS :=
  match fsLookup fs s.streamingPathS with
  | some c => .ok (fsSet (fsRemove fs s.streamingPathS) s.backupPathS c)
  | none => .error .rxError

/-- The receive-side state of `StreamConn::data_sync`: the file system and
the currently open sink, if any. -/
structure RxState where
  fs : FS
  sink : Option (String × Snapshot)
deriving DecidableEq, Repr

/-- Outcome of handling one inbound message. -/
inductive HandleRes where
  | cont
  | finished
  | fail (e : NetworkError)
deriving DecidableEq, Repr

/-- The `handle` closure of `StreamConn::data_sync` for one inbound message:
returns the messages sent in reply, the updated state, and whether the loop
continues, finishes (`Done`) or fails.  Sink writes are modelled as
infallible appends (a write failure would send `Error(RxError)` and fail). -/
def handleMsg (cfg : RxConfig) (st : RxState) (msg : StreamMessage) :
    List StreamMessage × RxState × HandleRes :=
  match msg with
  | .stream r =>
    match r with
    | .ok _ => ([], st, .cont)
    | .error e => ([], st, .fail (.remote e))
  | .replicate snap =>
    match st.sink with
    | none =>
      match rxSetup cfg st.fs snap with
      | .ok (fs', w) => ([.stream (.ok ())], ⟨fs', some (w, snap)⟩, .cont)
      | .error e => ([.stream (.error e)], st, .fail (.remote e))
    | some _ => ([.stream (.error .alreadyStreaming)], st, .cont)
  | .chunk data =>
    match st.sink with
    | some (w, snap) => ([], ⟨fsAppend st.fs w data, some (w, snap)⟩, .cont)
    | none => ([.errorMsg .notStreaming], st, .cont)
  | .endMsg r =>
    match r with
    | .error e => ([], st, .fail (.remote e))
    | .ok _ =>
      match st.sink with
      | some (_, snap) =>
        match rxFinish st.fs snap with
        | .ok fs' => ([], ⟨fs', none⟩, .cont)
        | .error e => ([.errorMsg e], ⟨st.fs, none⟩, .fail (.remote e))
      | none => ([.errorMsg .notStreaming], st, .cont)
  | .done => ([], st, .finished)
  | .errorMsg e => ([], st, .fail (.remote e))
  | .syncInfo _ => ([.errorMsg .illegalTransition], st, .fail .illegalTransition)

/-- The receive loop of `data_sync` over a list of inbound messages:
processes until `Done`, a failure, or the end of input; returns the sent
messages, the final state, and the failure if any. -/
def runRx (cfg : RxConfig) : RxState → List StreamMessage →
    List StreamMessage × RxState × Option NetworkError
  | st, [] => ([], st, none)
  | st, m :: ms =>
    match handleMsg cfg st m with
    | (sent, st', .cont) =>
      let rest := runRx cfg st' ms
      (sent ++ rest.1, rest.2.1, rest.2.2)
    | (sent, st', .finished) => (sent, st', none)
    | (sent, st', .fail e) => (sent, st', some e)

/-- `send_chunk` from `StreamConn::data_sync`: given the outcome of one read
from the byte source, either propagate the I/O error (sending **nothing**),
send the chunk, or send `End(Ok)` at end-of-input. -/
def sendChunk (readRes : Except Nat (List Nat)) :
    List StreamMessage × Except NetworkError Bool :=
  match readRes with
  | .error e => ([], .error (.ioErr e))
  | .ok chunk =>
    if chunk ≠ [] then ([.chunk chunk], .ok true)
    else ([.endMsg (.ok ())], .ok false)

/-- The `while send_chunk(&mut r)? {}` loop of the transmit task over the
successive read outcomes of one batch item. -/
def txStreamItem : List (Except Nat (List Nat)) →
    List StreamMessage × Except NetworkError Unit
  | [] => ([], .ok ())
  | r :: rs =>
    match sendChunk r with
    | (sent, .ok true) =>
      let rest := txStreamItem rs
      (sent ++ rest.1, rest.2)
    | (sent, .ok false) => (sent, .ok ())
    | (sent, .error e) => (sent, .error e)

/-- The concrete primitives used by witnesses: concatenation in place of
Argon2id and HMAC. -/
def refPrims : CryptoPrims := ⟨fun salt pw => salt ++ pw, fun k d => k ++ d⟩

/-- A snapshot used by the C4 counterexample. -/
def c4Snap : Snapshot := ⟨"peer", "data", false, ⟨2024, 1, 1, 0, 0, 0⟩⟩

/-- A receiver configuration with an empty push grant. -/
def c4Cfg : RxConfig := ⟨"srv", []⟩

/-- A receiver state whose file system already holds the backup file. -/
def c4St : RxState := ⟨[(c4Snap.backupPathS, [7])], none⟩

theorem splitOnChar_ne_nil (c : Char) (l : List Char) : splitOnChar c l ≠ [] := by
  induction l with
  | nil => simp [splitOnChar]
  | cons x xs ih =>
    simp only [splitOnChar]
    by_cases h : x = c
    · simp [h]
    · simp only [h, if_false]
      cases hs : splitOnChar c xs with
      | nil => simp
      | cons t ts => simp

/-- On a separator-free list, splitting returns the single whole piece. -/
theorem splitOnChar_of_not_mem {c : Char} {l : List Char} (h : c ∉ l) :
    splitOnChar c l = [l] := by
  induction l with
  | nil => rfl
  | cons x xs ih =>
    simp only [List.mem_cons, not_or] at h
    have hx : ¬ x = c := fun hxc => h.1 hxc.symm
    simp only [splitOnChar, hx, if_false, ih h.2]

/-- Splitting distributes over a separator occurrence. -/
theorem splitOnChar_append (c : Char) (xs ys : List Char) :
    splitOnChar c (xs ++ c :: ys) = splitOnChar c xs ++ splitOnChar c ys := by
  induction xs with
  | nil => simp [splitOnChar]
  | cons x t ih =>
    by_cases h : x = c
    · simp [splitOnChar, h, ih]
    · simp only [List.cons_append, splitOnChar, h, if_false]
      simp only [List.append_eq]
      rw [ih]
      cases hs : splitOnChar c t with
      | nil => exact absurd hs (splitOnChar_ne_nil c t)
      | cons u us => simp

theorem recWriteBytes_append (c : StreamCipher) (pw : List Nat) (xs ys : List Nat) :
    ∀ s, recWriteBytes c pw s (xs ++ ys) =
      match recWriteBytes c pw s xs with
      | .ok s' => recWriteBytes c pw s' ys
      | .error e => .error e := by
  induction xs with
  | nil => intro s; rfl
  | cons b bs ih =>
    intro s
    simp only [List.cons_append, recWriteBytes]
    cases recWriteByte c pw s b with
    | ok s' => exact ih s'
    | error e => rfl

theorem recWriteClose_append (c : StreamCipher) (pw : List Nat) (xs ys : List Nat) (s : RecState) :
    recWriteClose c pw s (xs ++ ys) =
      match recWriteBytes c pw s xs with
      | .ok s' => recWriteClose c pw s' ys
      | .error e => .error e := by
  rw [recWriteClose, recWriteBytes_append]
  cases recWriteBytes c pw s xs with
  | ok s' => rfl
  | error e => rfl

theorem recWriteBytes_absorb_some (c : StreamCipher) (pw : List Nat) :
    ∀ (bs : List Nat) (I : List Nat) (k : List Nat) (i : Nat) (buf : List Nat) (cl : Bool),
      buf.length + bs.length ≤ 16 + CHUNKSIZE →
      recWriteBytes c pw ⟨I, some (k, i), buf, cl⟩ bs = .ok ⟨I, some (k, i), buf ++ bs, cl⟩ := by
  intro bs
  induction bs with
  | nil => intro I k i buf cl _; simp [recWriteBytes]
  | cons b bs ih =>
    intro I k i buf cl h
    simp only [List.length_cons] at h
    have hlt : ¬ 16 + CHUNKSIZE ≤ buf.length := by omega
    simp only [recWriteBytes, recWriteByte, hlt, if_false]
    rw [ih I k i (buf ++ [b]) cl (by simp; omega)]
    simp

theorem recWriteBytes_absorb_none (c : StreamCipher) (pw : List Nat) :
    ∀ (bs : List Nat) (I : List Nat) (buf : List Nat) (cl : Bool),
      buf.length + bs.length ≤ 19 →
      recWriteBytes c pw ⟨I, none, buf, cl⟩ bs = .ok ⟨I, none, buf ++ bs, cl⟩ := by
  intro bs
  induction bs with
  | nil => intro I buf cl _; simp [recWriteBytes]
  | cons b bs ih =>
    intro I buf cl h
    simp only [List.length_cons] at h
    have hlt : ¬ 19 ≤ buf.length := by omega
    simp only [recWriteBytes, recWriteByte, hlt, if_false]
    rw [ih I (buf ++ [b]) cl (by simp; omega)]
    simp

theorem recClose_open (c : StreamCipher) (I k : List Nat) (i : Nat) (buf : List Nat) :
    recClose c ⟨I, some (k, i), buf, false⟩ =
      match c.openC k i true (buf.take (16 + CHUNKSIZE)) with
      | some plain => .ok ⟨I ++ plain, none, buf.drop (16 + CHUNKSIZE), true⟩
      | none => .error .decryptFailed := by
  rw [recClose]
  simp

theorem recClose_none (c : StreamCipher) (I buf : List Nat) :
    recClose c ⟨I, none, buf, false⟩ = .ok ⟨I, none, buf, true⟩ := by
  rw [recClose]
  simp

theorem recWriteClose_step_empty (c : StreamCipher) (pw I k : List Nat) (i b : Nat)
    (bs : List Nat) :
    recWriteClose c pw ⟨I, some (k, i), [], false⟩ (b :: bs) =
      recWriteClose c pw ⟨I, some (k, i), [b], false⟩ bs := by
  have hnf : ¬ (16 + CHUNKSIZE ≤ ([] : List Nat).length) := by
    simp only [List.length_nil]; omega
  rw [recWriteClose, recWriteClose]
  simp only [recWriteBytes, recWriteByte, hnf, if_false, List.nil_append]

theorem recWriteClose_block (c : StreamCipher) (pw I k : List Nat) (i : Nat) (m : List Nat)
    (hm : m.length = CHUNKSIZE) (x : Nat) (xs : List Nat) :
    recWriteClose c pw ⟨I, some (k, i), [], false⟩ (c.sealC k i false m ++ x :: xs) =
      recWriteClose c pw ⟨I ++ m, some (k, i + 1), [x], false⟩ xs := by
  have hBlen : (c.sealC k i false m).length = CHUNKSIZE + 16 := by rw [c.seal_length, hm]
  rw [recWriteClose_append]
  rw [recWriteBytes_absorb_some c pw _ I k i [] false (by rw [List.length_nil, hBlen]; omega)]
  simp only [List.nil_append]
  rw [recWriteClose, recWriteClose]
  simp only [recWriteBytes, recWriteByte]
  have hfull : 16 + CHUNKSIZE ≤ (c.sealC k i false m).length := by omega
  rw [if_pos hfull]
  have htk : (c.sealC k i false m).take (16 + CHUNKSIZE) = c.sealC k i false m :=
    List.take_of_length_le (by omega)
  rw [htk, c.sopen_seal]
  have hdr : (c.sealC k i false m).drop (16 + CHUNKSIZE) = [] :=
    List.drop_eq_nil_of_le (by omega)
  rw [hdr]
  rfl

theorem recWriteClose_nonce (c : StreamCipher) (pw nonce : List Nat) (hn : nonce.length = 19)
    (b : Nat) (bs : List Nat) :
    recWriteClose c pw recInit (nonce ++ b :: bs) =
      recWriteClose c pw ⟨[], some (c.keyOf nonce pw, 0), [b], false⟩ bs := by
  rw [recInit, recWriteClose_append]
  rw [recWriteBytes_absorb_none c pw nonce [] [] false (by rw [List.length_nil, hn])]
  simp only [List.nil_append]
  rw [recWriteClose, recWriteClose]
  simp only [recWriteBytes, recWriteByte]
  have h19 : (19 : Nat) ≤ nonce.length := by omega
  rw [if_pos h19]
  have htk : nonce.take 19 = nonce := List.take_of_length_le (by omega)
  have hdr : nonce.drop 19 = [] := List.drop_eq_nil_of_le (by omega)
  rw [htk, hdr]
  simp only [List.nil_append]

theorem recProcess_eq (c : StreamCipher) (pw input : List Nat) :
    recProcess c pw input =
      match recWriteClose c pw recInit input with
      | .ok s => .ok s.inner
      | .error e => .error e := by
  rw [recProcess, recWrite, recWriteClose]
  simp only [recInit]
  simp only [Bool.false_eq_true, if_false]
  cases recWriteBytes c pw ⟨[], none, [], false⟩ input with
  | ok s => cases hrc : recClose c s <;> simp [hrc]
  | error e => rfl

theorem sealStream_length_pos (c : StreamCipher) (k : List Nat) :
    ∀ fuel i p, p ≠ [] → p.length ≤ fuel → 0 < (sealStream c k fuel i p).length := by
  intro fuel
  cases fuel with
  | zero =>
    intro i p hp hl
    exact absurd (List.eq_nil_of_length_eq_zero (Nat.le_zero.mp hl)) hp
  | succ f =>
    intro i p _ _
    rw [sealStream]
    split
    · rw [c.seal_length]; omega
    · rw [List.length_append, c.seal_length]; omega

/-- Feeding the complete sealed stream of a non-empty plaintext into an
initialized `RecoveryStream` and closing it recovers exactly the plaintext. -/
theorem recWriteClose_sealStream (c : StreamCipher) (pw : List Nat) :
    ∀ fuel p k i I, p ≠ [] → p.length ≤ fuel →
      recWriteClose c pw ⟨I, some (k, i), [], false⟩ (sealStream c k fuel i p) =
        .ok ⟨I ++ p, none, [], true⟩ := by
  intro fuel
  induction fuel with
  | zero =>
    intro p k i I hp hl
    exact absurd (List.eq_nil_of_length_eq_zero (Nat.le_zero.mp hl)) hp
  | succ f ih =>
    intro p k i I hp hl
    rw [sealStream]
    by_cases hle : p.length ≤ CHUNKSIZE
    · rw [if_pos hle]
      rw [recWriteClose]
      rw [recWriteBytes_absorb_some c pw _ I k i [] false
        (by rw [List.length_nil, c.seal_length]; omega)]
      simp only [List.nil_append]
      rw [recClose_open]
      have htk : (c.sealC k i true p).take (16 + CHUNKSIZE) = c.sealC k i true p :=
        List.take_of_length_le (by rw [c.seal_length]; omega)
      rw [htk, c.sopen_seal]
      have hdr : (c.sealC k i true p).drop (16 + CHUNKSIZE) = [] :=
        List.drop_eq_nil_of_le (by rw [c.seal_length]; omega)
      rw [hdr]
    · rw [if_neg hle]
      have hm : (p.take CHUNKSIZE).length = CHUNKSIZE := by
        rw [List.length_take]; omega
      have hp' : p.drop CHUNKSIZE ≠ [] := by
        intro hnil
        have := congrArg List.length hnil
        rw [List.length_drop, List.length_nil] at this
        omega
      have hl' : (p.drop CHUNKSIZE).length ≤ f := by
        rw [List.length_drop]
        have hc : 0 < CHUNKSIZE := by rw [CHUNKSIZE]; omega
        omega
      have hRpos := sealStream_length_pos c k f (i + 1) (p.drop CHUNKSIZE) hp' hl'
      obtain ⟨r₀, rs, hr⟩ : ∃ a as, sealStream c k f (i + 1) (p.drop CHUNKSIZE) = a :: as := by
        cases hRe : sealStream c k f (i + 1) (p.drop CHUNKSIZE) with
        | nil => rw [hRe, List.length_nil] at hRpos; omega
        | cons a as => exact ⟨a, as, rfl⟩
      rw [hr, recWriteClose_block c pw I k i (p.take CHUNKSIZE) hm r₀ rs]
      have hih := ih (p.drop CHUNKSIZE) k (i + 1) (I ++ p.take CHUNKSIZE) hp' hl'
      rw [hr, recWriteClose_step_empty] at hih
      rw [hih, List.append_assoc, List.take_append_drop]

/-- Feeding any strict, non-empty prefix of the sealed stream of a non-empty
plaintext into an initialized `RecoveryStream` and closing it fails:
`decrypt_last` rejects the leftover partial chunk. -/
theorem recWriteClose_sealStream_trunc (c : StreamCipher) (pw : List Nat) :
    ∀ fuel p k i I t, p ≠ [] → p.length ≤ fuel → 1 ≤ t →
      t < (sealStream c k fuel i p).length →
      recWriteClose c pw ⟨I, some (k, i), [], false⟩ ((sealStream c k fuel i p).take t) =
        .error .decryptFailed := by
  intro fuel
  induction fuel with
  | zero =>
    intro p k i I t hp hl _ _
    exact absurd (List.eq_nil_of_length_eq_zero (Nat.le_zero.mp hl)) hp
  | succ f ih =>
    intro p k i I t hp hl ht1 ht2
    rw [sealStream] at ht2 ⊢
    by_cases hle : p.length ≤ CHUNKSIZE
    · rw [if_pos hle] at ht2 ⊢
      rw [c.seal_length] at ht2
      rw [recWriteClose]
      rw [recWriteBytes_absorb_some c pw _ I k i [] false
        (by rw [List.length_nil, List.length_take, c.seal_length]; omega)]
      simp only [List.nil_append]
      rw [recClose_open]
      have htt : ((c.sealC k i true p).take t).take (16 + CHUNKSIZE) =
          (c.sealC k i true p).take t :=
        List.take_of_length_le (by rw [List.length_take, c.seal_length]; omega)
      rw [htt]
      cases hop : c.openC k i true ((c.sealC k i true p).take t) with
      | none => rfl
      | some m =>
        exfalso
        have himg := c.sopen_image _ _ _ _ _ hop
        have hsp : c.sealC k i true m ++ (c.sealC k i true p).drop t = c.sealC k i true p := by
          rw [← himg, List.take_append_drop]
        obtain ⟨-, hm⟩ := c.seal_unext _ _ _ _ _ _ _ hsp
        subst hm
        have hlen := congrArg List.length himg
        rw [List.length_take, c.seal_length] at hlen
        rw [Nat.min_def] at hlen
        split at hlen <;> omega
    · rw [if_neg hle] at ht2 ⊢
      have hm : (p.take CHUNKSIZE).length = CHUNKSIZE := by
        rw [List.length_take]; omega
      have hBlen : (c.sealC k i false (p.take CHUNKSIZE)).length = CHUNKSIZE + 16 := by
        rw [c.seal_length, hm]
      by_cases hts : t ≤ CHUNKSIZE + 16
      · have htb :
            (c.sealC k i false (p.take CHUNKSIZE) ++
                sealStream c k f (i + 1) (p.drop CHUNKSIZE)).take t =
              (c.sealC k i false (p.take CHUNKSIZE)).take t := by
          rw [List.take_append_eq_append_take]
          have h0 : t - (c.sealC k i false (p.take CHUNKSIZE)).length = 0 := by omega
          rw [h0, List.take_zero, List.append_nil]
        rw [htb]
        rw [recWriteClose]
        rw [recWriteBytes_absorb_some c pw _ I k i [] false
          (by rw [List.length_nil, List.length_take]; omega)]
        simp only [List.nil_append]
        rw [recClose_open]
        have htt : (((c.sealC k i false (p.take CHUNKSIZE)).take t)).take (16 + CHUNKSIZE) =
            (c.sealC k i false (p.take CHUNKSIZE)).take t :=
          List.take_of_length_le (by rw [List.length_take]; omega)
        rw [htt]
        cases hop : c.openC k i true ((c.sealC k i false (p.take CHUNKSIZE)).take t) with
        | none => rfl
        | some m =>
          exfalso
          have himg := c.sopen_image _ _ _ _ _ hop
          have hsp : c.sealC k i true m ++ (c.sealC k i false (p.take CHUNKSIZE)).drop t =
              c.sealC k i false (p.take CHUNKSIZE) := by
            rw [← himg, List.take_append_drop]
          obtain ⟨hfl, -⟩ := c.seal_unext _ _ _ _ _ _ _ hsp
          exact absurd hfl (by simp)
      · push_neg at hts
        have htb :
            (c.sealC k i false (p.take CHUNKSIZE) ++
                sealStream c k f (i + 1) (p.drop CHUNKSIZE)).take t =
              c.sealC k i false (p.take CHUNKSIZE) ++
                (sealStream c k f (i + 1) (p.drop CHUNKSIZE)).take (t - (CHUNKSIZE + 16)) := by
          rw [List.take_append_eq_append_take]
          rw [List.take_of_length_le (by omega), hBlen]
        rw [htb]
        have hp' : p.drop CHUNKSIZE ≠ [] := by
          intro hnil
          have := congrArg List.length hnil
          rw [List.length_drop, List.length_nil] at this
          omega
        have hl' : (p.drop CHUNKSIZE).length ≤ f := by
          rw [List.length_drop]
          have hc : 0 < CHUNKSIZE := by rw [CHUNKSIZE]; omega
          omega
        have ht2' : t - (CHUNKSIZE + 16) <
            (sealStream c k f (i + 1) (p.drop CHUNKSIZE)).length := by
          rw [List.length_append, hBlen] at ht2; omega
        have ht1' : 1 ≤ t - (CHUNKSIZE + 16) := by omega
        have htklen :
            ((sealStream c k f (i + 1) (p.drop CHUNKSIZE)).take (t - (CHUNKSIZE + 16))).length =
              t - (CHUNKSIZE + 16) :=
          List.length_take_of_le (by omega)
        obtain ⟨r₀, rs, hr⟩ : ∃ a as,
            (sealStream c k f (i + 1) (p.drop CHUNKSIZE)).take (t - (CHUNKSIZE + 16)) =
              a :: as := by
          cases hRe : (sealStream c k f (i + 1) (p.drop CHUNKSIZE)).take (t - (CHUNKSIZE + 16))
            with
          | nil => rw [hRe, List.length_nil] at htklen; omega
          | cons a as => exact ⟨a, as, rfl⟩
        rw [hr, recWriteClose_block c pw I k i (p.take CHUNKSIZE) hm r₀ rs]
        have hih := ih (p.drop CHUNKSIZE) k (i + 1) (I ++ p.take CHUNKSIZE)
          (t - (CHUNKSIZE + 16)) hp' hl' ht1' ht2'
        rw [hr, recWriteClose_step_empty] at hih
        exact hih

/-- C1: for every byte sequence `P` and every passphrase `pw`, feeding `P`
through a `SnapshotStream` (which emits a 19-byte random nonce followed by
AEAD-sealed chunks of at most `CHUNKSIZE` plaintext bytes plus a 16-byte tag
each) and writing the complete output into a `RecoveryStream` constructed
with the same passphrase, then closing it, causes the `RecoveryStream`'s
inner writer to receive exactly `P`. -/
theorem c1_stream_roundtrip (c : StreamCipher) (pw nonce p : List Nat)
    (hn : nonce.length = 19) :
    recProcess c pw (snapshotStreamOutput c nonce pw p) = .ok p := by
  by_cases hp : p = []
  · subst hp
    rw [recProcess_eq]
    have hout : snapshotStreamOutput c nonce pw [] = nonce := rfl
    rw [hout, recWriteClose, recInit]
    rw [recWriteBytes_absorb_none c pw nonce [] [] false (by rw [List.length_nil, hn])]
    simp only [List.nil_append]
    rw [recClose_none]
  · have hne : p.isEmpty = false := by
      cases p with
      | nil => exact absurd rfl hp
      | cons a as => rfl
    rw [recProcess_eq, snapshotStreamOutput, hne]
    simp only [Bool.false_eq_true, if_false]
    have hpos := sealStream_length_pos c (c.keyOf nonce pw) p.length 0 p hp le_rfl
    obtain ⟨e₀, es, hE⟩ : ∃ a as, sealStream c (c.keyOf nonce pw) p.length 0 p = a :: as := by
      cases hRe : sealStream c (c.keyOf nonce pw) p.length 0 p with
      | nil => rw [hRe, List.length_nil] at hpos; omega
      | cons a as => exact ⟨a, as, rfl⟩
    rw [hE, recWriteClose_nonce c pw nonce hn e₀ es]
    have hmain := recWriteClose_sealStream c pw p.length p (c.keyOf nonce pw) 0 [] hp le_rfl
    rw [hE, recWriteClose_step_empty] at hmain
    rw [hmain]
    rfl

/-- Witness for C1 at a concrete input. -/
theorem c1_stream_roundtrip_witness :
    recProcess refCipher [] (snapshotStreamOutput refCipher (List.replicate 19 0) [] [1, 2, 3]) =
      .ok [1, 2, 3] :=
  c1_stream_roundtrip refCipher [] (List.replicate 19 0) [1, 2, 3] (by simp)

/-- C2 counterexample: for the non-empty plaintext `[0]`, the complete
`SnapshotStream` output is 36 bytes long, but its 19-byte strict prefix
(the bare nonce, i.e. the output truncated by the entire 17-byte sealed
chunk) makes the `RecoveryStream` close **successfully**, writing nothing:
the cipher is never initialized, so no error is reported. -/
theorem c2_truncation_counterexample :
    (snapshotStreamOutput refCipher (List.replicate 19 0) [] [0]).length = 36 ∧
      recProcess refCipher []
          ((snapshotStreamOutput refCipher (List.replicate 19 0) [] [0]).take 19) =
        .ok [] := by
  exact ⟨rfl, rfl⟩

/-- C2 (amended): truncating the `SnapshotStream` output of a non-empty
plaintext to `19 + t` bytes, where at least one ciphertext byte but not the
whole sealed stream survives after the nonce, makes the `RecoveryStream`
fail on close with a decryption error; but a truncation retaining at most
the 19-byte nonce closes successfully and writes nothing. -/
theorem c2_truncation_amended (c : StreamCipher) (pw nonce p : List Nat) (t u : Nat)
    (hn : nonce.length = 19) (hp : p ≠ []) (ht1 : 1 ≤ t)
    (ht2 : t < (sealStream c (c.keyOf nonce pw) p.length 0 p).length) (hu : u ≤ 19) :
    recProcess c pw ((snapshotStreamOutput c nonce pw p).take (19 + t)) =
        .error .decryptFailed ∧
      recProcess c pw ((snapshotStreamOutput c nonce pw p).take u) = .ok [] := by
  have hne : p.isEmpty = false := by
    cases p with
    | nil => exact absurd rfl hp
    | cons a as => rfl
  have hout : snapshotStreamOutput c nonce pw p =
      nonce ++ sealStream c (c.keyOf nonce pw) p.length 0 p := by
    rw [snapshotStreamOutput, hne]
    simp only [Bool.false_eq_true, if_false]
  constructor
  · rw [recProcess_eq, hout]
    have hsplit : (nonce ++ sealStream c (c.keyOf nonce pw) p.length 0 p).take (19 + t) =
        nonce ++ (sealStream c (c.keyOf nonce pw) p.length 0 p).take t := by
      rw [List.take_append_eq_append_take]
      rw [List.take_of_length_le (by omega), hn, Nat.add_sub_cancel_left]
    rw [hsplit]
    have htkl : ((sealStream c (c.keyOf nonce pw) p.length 0 p).take t).length = t :=
      List.length_take_of_le (by omega)
    obtain ⟨e₀, es, hE⟩ : ∃ a as,
        (sealStream c (c.keyOf nonce pw) p.length 0 p).take t = a :: as := by
      cases hRe : (sealStream c (c.keyOf nonce pw) p.length 0 p).take t with
      | nil => rw [hRe, List.length_nil] at htkl; omega
      | cons a as => exact ⟨a, as, rfl⟩
    rw [hE, recWriteClose_nonce c pw nonce hn e₀ es]
    have htr := recWriteClose_sealStream_trunc c pw p.length p (c.keyOf nonce pw) 0 [] t
      hp le_rfl ht1 ht2
    rw [hE, recWriteClose_step_empty] at htr
    rw [htr]
  · rw [recProcess_eq, hout]
    have hsplit2 : (nonce ++ sealStream c (c.keyOf nonce pw) p.length 0 p).take u =
        nonce.take u := by
      rw [List.take_append_eq_append_take]
      have h0 : u - nonce.length = 0 := by omega
      rw [h0, List.take_zero, List.append_nil]
    rw [hsplit2, recWriteClose, recInit]
    rw [recWriteBytes_absorb_none c pw (nonce.take u) [] [] false
      (by rw [List.length_nil, List.length_take_of_le (by omega)]; omega)]
    simp only [List.nil_append]
    rw [recClose_none]

/-- Witness for the amended C2 at a concrete input. -/
theorem c2_truncation_amended_witness :
    recProcess refCipher []
        ((snapshotStreamOutput refCipher (List.replicate 19 0) [] [5]).take (19 + 1)) =
        .error .decryptFailed ∧
      recProcess refCipher []
          ((snapshotStreamOutput refCipher (List.replicate 19 0) [] [5]).take 19) = .ok [] :=
  c2_truncation_amended refCipher [] (List.replicate 19 0) [5] 1 19 (by simp) (by simp)
    (by omega) (by decide) (by omega)

theorem dtLe_refl (a : DateTime) : dtLe a a := le_refl _

theorem dtLe_trans {a b c : DateTime} (h1 : dtLe a b) (h2 : dtLe b c) : dtLe a c :=
  le_trans h1 h2

theorem dtLe_of_not_dtLe {a b : DateTime} (h : ¬ dtLe a b) : dtLe b a := by
  unfold dtLe at *
  omega

theorem rmFold_spec (l : List Snapshot) :
    ∀ a : Snapshot, ∃ m, l.foldl rmStep (some a) = some m ∧ (m = a ∨ m ∈ l) ∧
      dtLe a.taken m.taken ∧ ∀ s ∈ l, dtLe s.taken m.taken := by
  induction l with
  | nil =>
    intro a
    exact ⟨a, rfl, Or.inl rfl, dtLe_refl _, by intro s hs; exact absurd hs (List.not_mem_nil s)⟩
  | cons x t ih =>
    intro a
    by_cases h : dtLe a.taken x.taken
    · obtain ⟨m, hm, hmem, hle, hall⟩ := ih x
      refine ⟨m, ?_, ?_, dtLe_trans h hle, ?_⟩
      · simpa [List.foldl_cons, rmStep, h] using hm
      · rcases hmem with rfl | hmem
        · exact Or.inr (List.mem_cons_self _ _)
        · exact Or.inr (List.mem_cons_of_mem _ hmem)
      · intro s hs
        rcases List.mem_cons.mp hs with rfl | hs
        · exact hle
        · exact hall s hs
    · obtain ⟨m, hm, hmem, hle, hall⟩ := ih a
      refine ⟨m, ?_, ?_, hle, ?_⟩
      · simpa [List.foldl_cons, rmStep, h] using hm
      · rcases hmem with rfl | hmem
        · exact Or.inl rfl
        · exact Or.inr (List.mem_cons_of_mem _ hmem)
      · intro s hs
        rcases List.mem_cons.mp hs with rfl | hs
        · exact dtLe_trans (dtLe_of_not_dtLe h) hle
        · exact hall s hs

theorem rustMaxByTaken_none_iff (l : List Snapshot) : rustMaxByTaken l = none ↔ l = [] := by
  cases l with
  | nil => simp [rustMaxByTaken]
  | cons x t =>
    simp only [rustMaxByTaken, List.foldl_cons]
    obtain ⟨m, hm, -, -, -⟩ := rmFold_spec t x
    have : rmStep none x = some x := rfl
    rw [this, hm]
    simp

theorem rustMaxByTaken_mem {l : List Snapshot} {m : Snapshot}
    (h : rustMaxByTaken l = some m) : m ∈ l := by
  cases l with
  | nil => simp [rustMaxByTaken] at h
  | cons x t =>
    simp only [rustMaxByTaken, List.foldl_cons] at h
    obtain ⟨m', hm', hmem, -, -⟩ := rmFold_spec t x
    have hx : rmStep none x = some x := rfl
    rw [hx, hm'] at h
    obtain rfl : m' = m := by injection h
    rcases hmem with rfl | hmem
    · exact List.mem_cons_self _ _
    · exact List.mem_cons_of_mem _ hmem

theorem rustMaxByTaken_ge {l : List Snapshot} {m : Snapshot}
    (h : rustMaxByTaken l = some m) : ∀ s ∈ l, dtLe s.taken m.taken := by
  cases l with
  | nil => simp [rustMaxByTaken] at h
  | cons x t =>
    simp only [rustMaxByTaken, List.foldl_cons] at h
    obtain ⟨m', hm', -, hle, hall⟩ := rmFold_spec t x
    have hx : rmStep none x = some x := rfl
    rw [hx, hm'] at h
    obtain rfl : m' = m := by injection h
    intro s hs
    rcases List.mem_cons.mp hs with rfl | hs
    · exact hle
    · exact hall s hs

theorem mem_older_full_iff (child : Snapshot) (snaps : List Snapshot) (s : Snapshot) :
    (s ∈ (snaps.filter (fun s => !s.is_incremental)).filter
        (fun s => decide (dtLt s.taken child.taken))) ↔
      s ∈ snaps ∧ s.is_incremental = false ∧ dtLt s.taken child.taken := by
  simp only [List.mem_filter, Bool.not_eq_true', decide_eq_true_eq]
  tauto

theorem mem_older_incr_iff (child : Snapshot) (snaps : List Snapshot) (s : Snapshot) :
    (s ∈ (snaps.filter (fun s => s.is_incremental)).filter
        (fun s => decide (dtLt s.taken child.taken))) ↔
      s ∈ snaps ∧ s.is_incremental = true ∧ dtLt s.taken child.taken := by
  simp only [List.mem_filter, decide_eq_true_eq]
  tauto

theorem parentCore_spec (child : Snapshot) (snaps : List Snapshot) :
    ((parentCore child snaps = .error (.noFullSnapshot child.subvol)) ↔
      ∀ s ∈ snaps, s.is_incremental = false → ¬ dtLt s.taken child.taken) ∧
    (∀ p, parentCore child snaps = .ok p →
      p ∈ snaps ∧ dtLt p.taken child.taken ∧
        ∀ s ∈ snaps, dtLt s.taken child.taken → dtLe s.taken p.taken) ∧
    ((∃ p, parentCore child snaps = .ok p) ∨
      parentCore child snaps = .error (.noFullSnapshot child.subvol)) := by
  rw [parentCore]
  cases hF : rustMaxByTaken ((snaps.filter (fun s => !s.is_incremental)).filter
      (fun s => decide (dtLt s.taken child.taken))) with
  | none =>
    have hemp := (rustMaxByTaken_none_iff _).mp hF
    rw [List.filter_eq_nil_iff] at hemp
    refine ⟨⟨fun _ s hs hfull hlt => ?_, fun _ => rfl⟩, fun p hp => by simp at hp, Or.inr rfl⟩
    have := hemp s (List.mem_filter.mpr ⟨hs, by simp [hfull]⟩)
    simp only [decide_eq_true_eq] at this
    exact this hlt
  | some pf =>
    have hpfmem := rustMaxByTaken_mem hF
    rw [mem_older_full_iff] at hpfmem
    have hge := rustMaxByTaken_ge hF
    refine ⟨⟨fun herr => ?_, fun hnone => ?_⟩, fun p hp => ?_, ?_⟩
    · exfalso
      revert herr
      cases rustMaxByTaken ((snaps.filter (fun s => s.is_incremental)).filter
          (fun s => decide (dtLt s.taken child.taken))) <;> simp
    · exfalso
      have := hnone pf hpfmem.1 hpfmem.2.1
      exact this hpfmem.2.2
    · cases hI : rustMaxByTaken ((snaps.filter (fun s => s.is_incremental)).filter
          (fun s => decide (dtLt s.taken child.taken))) with
      | none =>
        rw [hI] at hp
        obtain rfl : pf = p := by injection hp
        have hIemp := (rustMaxByTaken_none_iff _).mp hI
        refine ⟨hpfmem.1, hpfmem.2.2, fun s hs hlt => ?_⟩
        by_cases hincr : s.is_incremental
        · exfalso
          have : s ∈ (snaps.filter (fun s => s.is_incremental)).filter
              (fun s => decide (dtLt s.taken child.taken)) :=
            (mem_older_incr_iff child snaps s).mpr ⟨hs, hincr, hlt⟩
          rw [hIemp] at this
          exact List.not_mem_nil s this
        · exact hge s ((mem_older_full_iff child snaps s).mpr
            ⟨hs, Bool.eq_false_iff.mpr hincr, hlt⟩)
      | some pi =>
        rw [hI] at hp
        replace hp : Except.ok (if dtLe pf.taken pi.taken then pi else pf) = Except.ok p := hp
        have hpimem := rustMaxByTaken_mem hI
        rw [mem_older_incr_iff] at hpimem
        have hgeI := rustMaxByTaken_ge hI
        have hcases : (dtLe pf.taken pi.taken ∧ p = pi) ∨
            (¬ dtLe pf.taken pi.taken ∧ p = pf) := by
          by_cases hc : dtLe pf.taken pi.taken
          · rw [if_pos hc] at hp
            injection hp with h
            exact Or.inl ⟨hc, h.symm⟩
          · rw [if_neg hc] at hp
            injection hp with h
            exact Or.inr ⟨hc, h.symm⟩
        rcases hcases with ⟨hc, rfl⟩ | ⟨hc, rfl⟩
        · refine ⟨hpimem.1, hpimem.2.2, fun s hs hlt => ?_⟩
          by_cases hincr : s.is_incremental
          · exact hgeI s ((mem_older_incr_iff child snaps s).mpr ⟨hs, hincr, hlt⟩)
          · exact dtLe_trans (hge s ((mem_older_full_iff child snaps s).mpr
              ⟨hs, Bool.eq_false_iff.mpr hincr, hlt⟩)) hc
        · refine ⟨hpfmem.1, hpfmem.2.2, fun s hs hlt => ?_⟩
          by_cases hincr : s.is_incremental
          · exact dtLe_trans (hgeI s ((mem_older_incr_iff child snaps s).mpr ⟨hs, hincr, hlt⟩))
              (dtLe_of_not_dtLe hc)
          · exact hge s ((mem_older_full_iff child snaps s).mpr
              ⟨hs, Bool.eq_false_iff.mpr hincr, hlt⟩)
    · cases rustMaxByTaken ((snaps.filter (fun s => s.is_incremental)).filter
          (fun s => decide (dtLt s.taken child.taken))) with
      | none => exact Or.inl ⟨pf, rfl⟩
      | some pi => exact Or.inl ⟨_, rfl⟩

theorem all_snapshots_some_eq (ln : LocalNode) (sv : String) (entries : List Snapshot)
    (ho : sv ∈ ln.subvols)
    (hp : exceptMapM Snapshot.fromString ln.snapshotDirEntries = .ok entries) :
    ln.all_snapshots (some sv) = .ok (entries.filter (fun s => decide (s.subvol = sv))) := by
  rw [LocalNode.all_snapshots, if_pos ho, hp]

theorem all_snapshots_foreign (ln : LocalNode) (sv : String) (h : sv ∉ ln.subvols) :
    ln.all_snapshots (some sv) = .error (.foreignSubvolume sv) := by
  rw [LocalNode.all_snapshots, if_neg h]

theorem mem_of_all_snapshots {ln : LocalNode} {sv : String} {out : List Snapshot}
    (h : ln.all_snapshots (some sv) = .ok out) : ∀ s ∈ out, s.subvol = sv := by
  rw [LocalNode.all_snapshots] at h
  by_cases ho : sv ∈ ln.subvols
  · rw [if_pos ho] at h
    cases hp : exceptMapM Snapshot.fromString ln.snapshotDirEntries with
    | error e => rw [hp] at h; exact absurd h (by simp)
    | ok snaps =>
      rw [hp] at h
      obtain rfl : snaps.filter (fun s => decide (s.subvol = sv)) = out := by injection h
      intro s hs
      exact of_decide_eq_true (List.mem_filter.mp hs).2
  · rw [if_neg ho] at h
    exact absurd h (by simp)

/-- C6: for every snapshot `child` (of an owned subvolume, with a parseable
snapshot directory), `parent_of(child)` fails with `NoFullSnapshot` exactly
when no full snapshot of the subvolume is strictly older than the child;
when it succeeds, the result is a strictly older snapshot of the subvolume
whose `taken` is maximal among all strictly older snapshots of the
subvolume — that is, the later of the latest full and the latest
incremental snapshots older than the child. -/
theorem c6_parent_of (ln : LocalNode) (child : Snapshot) (entries : List Snapshot)
    (ho : child.subvol ∈ ln.subvols)
    (hp : exceptMapM Snapshot.fromString ln.snapshotDirEntries = .ok entries) :
    ((ln.parent_of child = .error (.noFullSnapshot child.subvol)) ↔
      ∀ s ∈ entries, s.subvol = child.subvol → s.is_incremental = false →
        ¬ dtLt s.taken child.taken) ∧
    (∀ p, ln.parent_of child = .ok p →
      p ∈ entries ∧ p.subvol = child.subvol ∧ dtLt p.taken child.taken ∧
        ∀ s ∈ entries, s.subvol = child.subvol → dtLt s.taken child.taken →
          dtLe s.taken p.taken) ∧
    ((∃ p, ln.parent_of child = .ok p) ∨
      ln.parent_of child = .error (.noFullSnapshot child.subvol)) := by
  have hpe : ln.parent_of child =
      parentCore child (entries.filter (fun s => decide (s.subvol = child.subvol))) := by
    rw [LocalNode.parent_of, all_snapshots_some_eq ln child.subvol entries ho hp]
  obtain ⟨h1, h2, h3⟩ :=
    parentCore_spec child (entries.filter (fun s => decide (s.subvol = child.subvol)))
  rw [hpe]
  refine ⟨?_, ?_, h3⟩
  · rw [h1]
    constructor
    · intro h s hs hsv hfull hlt
      exact h s (List.mem_filter.mpr ⟨hs, by simp [hsv]⟩) hfull hlt
    · intro h s hs hfull
      have hmf := List.mem_filter.mp hs
      exact h s hmf.1 (of_decide_eq_true hmf.2) hfull
  · intro p hok
    obtain ⟨hm, hlt, hmax⟩ := h2 p hok
    have hmf := List.mem_filter.mp hm
    refine ⟨hmf.1, of_decide_eq_true hmf.2, hlt, ?_⟩
    intro s hs hsv hslt
    exact hmax s (List.mem_filter.mpr ⟨hs, by simp [hsv]⟩) hslt

/-- C7 (amended): `all_snapshots(filter)` never returns an entry whose
`subvol` differs from a provided filter, and fails with `ForeignSubvolume`
whenever the filter argument names a subvolume not owned by the local node.
The code performs no `node_name` check, so entries whose parsed `node_name`
differs from the local node name are returned when they pass the subvolume
filter (see the counterexample). -/
theorem c7_all_snapshots_amended (ln : LocalNode) (sv : String) :
    (∀ out, ln.all_snapshots (some sv) = .ok out → ∀ s ∈ out, s.subvol = sv) ∧
      (sv ∉ ln.subvols → ln.all_snapshots (some sv) = .error (.foreignSubvolume sv)) :=
  ⟨fun _ h => mem_of_all_snapshots h, fun h => all_snapshots_foreign ln sv h⟩

/-- Witness for the amended C7 at concrete inputs. -/
theorem c7_all_snapshots_amended_witness :
    LocalNode.all_snapshots ⟨"local", ["home"], [], []⟩ (some "data") =
      .error (.foreignSubvolume "data") :=
  (c7_all_snapshots_amended ⟨"local", ["home"], [], []⟩ "data").2 (by decide)

/-- C7 counterexample: with the owned subvolume filter `home`, a snapshot
directory entry whose parsed node name `other` differs from the local node
name `local` is nevertheless returned by `all_snapshots`: the code filters
only on the subvolume. -/
theorem c7_counterexample :
    LocalNode.all_snapshots ⟨"local", ["home"], ["other_home_full_20240101000000"], []⟩
        (some "home") =
      .ok [⟨"other", "home", false, ⟨2024, 1, 1, 0, 0, 0⟩⟩] ∧
    ("other" : String) ≠ "local" := by
  exact ⟨rfl, by decide⟩

/-- Witness for C6 at concrete inputs. -/
theorem c6_parent_of_witness :
    ((exNode.parent_of exChild = .error (.noFullSnapshot exChild.subvol)) ↔
      ∀ s ∈ exEntries, s.subvol = exChild.subvol → s.is_incremental = false →
        ¬ dtLt s.taken exChild.taken) ∧
    (∀ p, exNode.parent_of exChild = .ok p →
      p ∈ exEntries ∧ p.subvol = exChild.subvol ∧ dtLt p.taken exChild.taken ∧
        ∀ s ∈ exEntries, s.subvol = exChild.subvol → dtLt s.taken exChild.taken →
          dtLe s.taken p.taken) ∧
    ((∃ p, exNode.parent_of exChild = .ok p) ∨
      exNode.parent_of exChild = .error (.noFullSnapshot exChild.subvol)) :=
  c6_parent_of exNode exChild exEntries (by decide) (by rfl)

theorem exceptMapM_mem {α β E : Type} {f : α → Except E β} :
    ∀ {l : List α} {out : List β}, exceptMapM f l = .ok out →
      ∀ b ∈ out, ∃ a ∈ l, f a = .ok b := by
  intro l
  induction l with
  | nil =>
    intro out h b hb
    rw [exceptMapM] at h
    obtain rfl : ([] : List β) = out := by injection h
    exact absurd hb (List.not_mem_nil b)
  | cons a as ih =>
    intro out h b hb
    rw [exceptMapM] at h
    cases hfa : f a with
    | error e => rw [hfa] at h; exact absurd h (by simp)
    | ok b0 =>
      rw [hfa] at h
      cases hrec : exceptMapM f as with
      | error e => rw [hrec] at h; exact absurd h (by simp)
      | ok bs =>
        rw [hrec] at h
        obtain rfl : b0 :: bs = out := by injection h
        rcases List.mem_cons.mp hb with rfl | hb
        · exact ⟨a, List.mem_cons_self _ _, hfa⟩
        · obtain ⟨a', ha', hfa'⟩ := ih hrec b hb
          exact ⟨a', List.mem_cons_of_mem _ ha', hfa'⟩

theorem all_snapshots_some_inv {ln : LocalNode} {sv : String} {out : List Snapshot}
    (h : ln.all_snapshots (some sv) = .ok out) :
    sv ∈ ln.subvols ∧ ∃ entries,
      exceptMapM Snapshot.fromString ln.snapshotDirEntries = .ok entries ∧
        out = entries.filter (fun s => decide (s.subvol = sv)) := by
  rw [LocalNode.all_snapshots] at h
  by_cases ho : sv ∈ ln.subvols
  · rw [if_pos ho] at h
    cases hp : exceptMapM Snapshot.fromString ln.snapshotDirEntries with
    | error e => rw [hp] at h; exact absurd h (by simp)
    | ok entries =>
      rw [hp] at h
      refine ⟨ho, entries, rfl, ?_⟩
      injection h with h'
      exact h'.symm
  · rw [if_neg ho] at h
    exact absurd h (by simp)

theorem all_backups_some_inv {ln : LocalNode} {v : Volume} {out : List Snapshot}
    (h : ln.all_backups (some v) = .ok out) :
    ∃ parsed, exceptMapM Snapshot.fromString
        (ln.backupDirEntries.filter (fun e => !(rustExtension e == some "part"))) = .ok parsed ∧
      out = parsed.filter (fun b => decide (b.is_of_volume v)) := by
  rw [LocalNode.all_backups] at h
  cases hp : exceptMapM Snapshot.fromString
      (ln.backupDirEntries.filter (fun e => !(rustExtension e == some "part"))) with
  | error e => rw [hp] at h; exact absurd h (by simp)
  | ok parsed =>
    rw [hp] at h
    refine ⟨parsed, rfl, ?_⟩
    injection h with h'
    exact h'.symm

theorem mem_of_all_backups {ln : LocalNode} {v : Volume} {out : List Snapshot}
    (h : ln.all_backups (some v) = .ok out) : ∀ s ∈ out, s.is_of_volume v := by
  obtain ⟨parsed, -, rfl⟩ := all_backups_some_inv h
  intro s hs
  exact of_decide_eq_true (List.mem_filter.mp hs).2

theorem latest_backup_full_inv {ln : LocalNode} {v : Volume} {lf : Snapshot}
    (h : ln.latest_backup_full v = .ok lf) :
    ∃ bs, ln.all_backups (some v) = .ok bs ∧
      rustMaxByTaken (bs.filter (fun b => !b.is_incremental)) = some lf := by
  rw [LocalNode.latest_backup_full] at h
  cases hbs : ln.all_backups (some v) with
  | error e => rw [hbs] at h; exact absurd h (by simp)
  | ok bs =>
    rw [hbs] at h
    replace h : (match rustMaxByTaken (bs.filter (fun b => !b.is_incremental)) with
      | some s => (Except.ok s : Except LocalNodeError Snapshot)
      | none => Except.error (.noFullBackup v)) = Except.ok lf := h
    cases hmx : rustMaxByTaken (bs.filter (fun b => !b.is_incremental)) with
    | none => rw [hmx] at h; exact absurd h (by simp)
    | some m =>
      rw [hmx] at h
      obtain rfl : m = lf := by injection h
      exact ⟨bs, rfl, hmx⟩

theorem backup_incremental_after_eq {ln : LocalNode} {v : Volume} {bs : List Snapshot}
    (hbs : ln.all_backups (some v) = .ok bs) (t : DateTime) :
    ln.backup_incremental_after v t =
      .ok (bs.filter (fun b => b.is_incremental && decide (dtLt t b.taken))) := by
  rw [LocalNode.backup_incremental_after, hbs]

theorem volContrib_peer_eq {ln : LocalNode} {auth : RemoteNodeAuth} {v : Volume}
    (tips : LatestSnapshots) {lf : Snapshot} {bs : List Snapshot}
    (hvn : v.node_name = auth.node_name)
    (hlf : ln.latest_backup_full v = .ok lf)
    (hbs : ln.all_backups (some v) = .ok bs) :
    volContrib ln auth v tips =
      .ok ((if dtLt tips.last_full lf.taken then [lf] else []) ++
        bs.filter (fun b => b.is_incremental &&
          decide (dtLt (dtMax (dtMax tips.last_full lf.taken) tips.last_incremental) b.taken))) := by
  have hbi :=
    backup_incremental_after_eq hbs (dtMax (dtMax tips.last_full lf.taken) tips.last_incremental)
  rw [volContrib, if_pos hvn, if_pos hvn, hlf]
  show (match ln.backup_incremental_after v
      (dtMax (dtMax tips.last_full lf.taken) tips.last_incremental) with
    | Except.error e => Except.error e
    | Except.ok incr =>
      Except.ok ((if dtLt tips.last_full lf.taken then [lf] else []) ++ incr)) = _
  rw [hbi]

theorem is_of_volume_unique {s : Snapshot} {v v' : Volume}
    (h : s.is_of_volume v) (h' : s.is_of_volume v') : v = v' := by
  obtain ⟨h1, h2⟩ := h
  obtain ⟨h1', h2'⟩ := h'
  cases v
  cases v'
  simp only [Volume.mk.injEq]
  exact ⟨h1.symm.trans h1', h2.symm.trans h2'⟩

theorem nodup_key_unique {l : List (Volume × LatestSnapshots)}
    (hnd : (l.map Prod.fst).Nodup) {v : Volume} {a b : LatestSnapshots}
    (ha : (v, a) ∈ l) (hb : (v, b) ∈ l) : a = b := by
  induction l with
  | nil => exact absurd ha (List.not_mem_nil _)
  | cons x t ih =>
    rw [List.map_cons, List.nodup_cons] at hnd
    rcases List.mem_cons.mp ha with rfl | ha' <;> rcases List.mem_cons.mp hb with hb' | hb'
    · injection hb' with h1 h2
      exact h2.symm
    · exact absurd (List.mem_map.mpr ⟨(v, b), hb', rfl⟩) hnd.1
    · rw [← hb'] at hnd
      exact absurd (List.mem_map.mpr ⟨(v, a), ha', rfl⟩) hnd.1
    · exact ih hnd.2 ha' hb'

theorem mem_backup_full_after_vol {ln : LocalNode} {v : Volume} {t : DateTime}
    {out : List Snapshot} (h : ln.backup_full_after v t = .ok out) :
    ∀ s ∈ out, s.is_of_volume v := by
  rw [LocalNode.backup_full_after] at h
  cases hbs : ln.all_backups (some v) with
  | error e => rw [hbs] at h; exact absurd h (by simp)
  | ok bs =>
    rw [hbs] at h
    replace h : Except.ok (bs.filter (fun b => !b.is_incremental && decide (dtLt t b.taken))) =
      (Except.ok out : Except LocalNodeError (List Snapshot)) := h
    injection h with h'
    subst h'
    intro s hs
    exact mem_of_all_backups hbs s (List.mem_filter.mp hs).1

theorem mem_backup_incremental_after_vol {ln : LocalNode} {v : Volume} {t : DateTime}
    {out : List Snapshot} (h : ln.backup_incremental_after v t = .ok out) :
    ∀ s ∈ out, s.is_of_volume v := by
  rw [LocalNode.backup_incremental_after] at h
  cases hbs : ln.all_backups (some v) with
  | error e => rw [hbs] at h; exact absurd h (by simp)
  | ok bs =>
    rw [hbs] at h
    replace h : Except.ok (bs.filter (fun b => b.is_incremental && decide (dtLt t b.taken))) =
      (Except.ok out : Except LocalNodeError (List Snapshot)) := h
    injection h with h'
    subst h'
    intro s hs
    exact mem_of_all_backups hbs s (List.mem_filter.mp hs).1

theorem mem_snapshot_full_after_vol {ln : LocalNode} {sv : String} {t : DateTime}
    {out : List Snapshot} (h : ln.snapshot_full_after sv t = .ok out) :
    ∀ s ∈ out, s.subvol = sv ∧ ∃ e ∈ ln.snapshotDirEntries, Snapshot.fromString e = .ok s := by
  rw [LocalNode.snapshot_full_after] at h
  cases hs : ln.all_snapshots (some sv) with
  | error e => rw [hs] at h; exact absurd h (by simp)
  | ok ss =>
    rw [hs] at h
    replace h : Except.ok (ss.filter (fun s => !s.is_incremental && decide (dtLt t s.taken))) =
      (Except.ok out : Except LocalNodeError (List Snapshot)) := h
    injection h with h'
    subst h'
    intro s hsm
    have hss := (List.mem_filter.mp hsm).1
    obtain ⟨-, entries, hpe, hout⟩ := all_snapshots_some_inv hs
    subst hout
    refine ⟨of_decide_eq_true (List.mem_filter.mp hss).2, ?_⟩
    exact exceptMapM_mem hpe s (List.mem_filter.mp hss).1

theorem mem_snapshot_incremental_after_vol {ln : LocalNode} {sv : String} {t : DateTime}
    {out : List Snapshot} (h : ln.snapshot_incremental_after sv t = .ok out) :
    ∀ s ∈ out, s.subvol = sv ∧ ∃ e ∈ ln.snapshotDirEntries, Snapshot.fromString e = .ok s := by
  rw [LocalNode.snapshot_incremental_after] at h
  cases hs : ln.all_snapshots (some sv) with
  | error e => rw [hs] at h; exact absurd h (by simp)
  | ok ss =>
    rw [hs] at h
    replace h : Except.ok (ss.filter (fun s => s.is_incremental && decide (dtLt t s.taken))) =
      (Except.ok out : Except LocalNodeError (List Snapshot)) := h
    injection h with h'
    subst h'
    intro s hsm
    have hss := (List.mem_filter.mp hsm).1
    obtain ⟨-, entries, hpe, hout⟩ := all_snapshots_some_inv hs
    subst hout
    refine ⟨of_decide_eq_true (List.mem_filter.mp hss).2, ?_⟩
    exact exceptMapM_mem hpe s (List.mem_filter.mp hss).1

theorem mem_all_full_after_vol {ln : LocalNode} {v : Volume} {t : DateTime}
    {out : List Snapshot}
    (hclean : ∀ e ∈ ln.snapshotDirEntries, ∀ s, Snapshot.fromString e = .ok s →
      s.node_name = ln.node_name)
    (h : ln.all_full_after v t = .ok out) : ∀ s ∈ out, s.is_of_volume v := by
  rw [LocalNode.all_full_after] at h
  by_cases hln : v.node_name = ln.node_name
  · rw [if_pos hln] at h
    intro s hs
    obtain ⟨hsub, e, he, hfe⟩ := mem_snapshot_full_after_vol h s hs
    exact ⟨(hclean e he s hfe).trans hln.symm, hsub⟩
  · rw [if_neg hln] at h
    exact mem_backup_full_after_vol h

theorem mem_all_incremental_after_vol {ln : LocalNode} {v : Volume} {t : DateTime}
    {out : List Snapshot}
    (hclean : ∀ e ∈ ln.snapshotDirEntries, ∀ s, Snapshot.fromString e = .ok s →
      s.node_name = ln.node_name)
    (h : ln.all_incremental_after v t = .ok out) : ∀ s ∈ out, s.is_of_volume v := by
  rw [LocalNode.all_incremental_after] at h
  by_cases hln : v.node_name = ln.node_name
  · rw [if_pos hln] at h
    intro s hs
    obtain ⟨hsub, e, he, hfe⟩ := mem_snapshot_incremental_after_vol h s hs
    exact ⟨(hclean e he s hfe).trans hln.symm, hsub⟩
  · rw [if_neg hln] at h
    exact mem_backup_incremental_after_vol h

theorem volContrib_of_volume {ln : LocalNode} {auth : RemoteNodeAuth} {v : Volume}
    {tips : LatestSnapshots} {cc : List Snapshot}
    (hclean : ∀ e ∈ ln.snapshotDirEntries, ∀ s, Snapshot.fromString e = .ok s →
      s.node_name = ln.node_name)
    (hok : volContrib ln auth v tips = .ok cc) :
    ∀ s ∈ cc, s.is_of_volume v := by
  by_cases hvn : v.node_name = auth.node_name
  · cases hlf : ln.latest_backup_full v with
    | error e =>
      rw [volContrib, if_pos hvn, hlf] at hok
      exact absurd hok (by simp)
    | ok lf =>
      obtain ⟨bs, hbs, hmx⟩ := latest_backup_full_inv hlf
      rw [volContrib_peer_eq tips hvn hlf hbs] at hok
      injection hok with h'
      subst h'
      intro s hs
      rcases List.mem_append.mp hs with hsf | hsi
      · have hslf : s = lf := by
          by_cases hc : dtLt tips.last_full lf.taken
          · rw [if_pos hc] at hsf; simpa using hsf
          · rw [if_neg hc] at hsf; simp at hsf
        subst hslf
        exact mem_of_all_backups hbs s (List.mem_filter.mp (rustMaxByTaken_mem hmx)).1
      · exact mem_of_all_backups hbs s (List.mem_filter.mp hsi).1
  · rw [volContrib, if_neg hvn, if_neg hvn] at hok
    cases hfa : ln.all_full_after v tips.last_full with
    | error e => rw [hfa] at hok; exact absurd hok (by simp)
    | ok fulls =>
      rw [hfa] at hok
      replace hok : (match ln.all_incremental_after v tips.last_incremental with
        | Except.error e => (Except.error e : Except LocalNodeError (List Snapshot))
        | Except.ok incr => Except.ok (fulls ++ incr)) = Except.ok cc := hok
      cases hia : ln.all_incremental_after v tips.last_incremental with
      | error e => rw [hia] at hok; exact absurd hok (by simp)
      | ok incr =>
        rw [hia] at hok
        injection hok with h'
        subst h'
        intro s hs
        rcases List.mem_append.mp hs with hs | hs
        · exact mem_all_full_after_vol hclean hfa s hs
        · exact mem_all_incremental_after_vol hclean hia s hs

theorem buildTx_contrib_ok {ln : LocalNode} {auth : RemoteNodeAuth} :
    ∀ {l : List (Volume × LatestSnapshots)} {tx : List Snapshot},
      buildTx ln auth l = .ok tx →
      ∀ {v : Volume} {tips : LatestSnapshots}, (v, tips) ∈ l →
        (v ∈ auth.pull ∨ v.node_name = auth.node_name) →
        ∃ cc, volContrib ln auth v tips = .ok cc := by
  intro l
  induction l with
  | nil =>
    intro tx _ v tips hm _
    exact absurd hm (List.not_mem_nil _)
  | cons x rest ih =>
    intro tx h v tips hm hg
    obtain ⟨w, wtips⟩ := x
    rw [buildTx] at h
    by_cases hc : w ∈ auth.pull ∨ w.node_name = auth.node_name
    · rw [if_pos hc] at h
      cases hvc : volContrib ln auth w wtips with
      | error e => rw [hvc] at h; exact absurd h (by simp)
      | ok cc0 =>
        rw [hvc] at h
        replace h : (match buildTx ln auth rest with
          | .error e => (Except.error e : Except LocalNodeError (List Snapshot))
          | .ok r => .ok (cc0 ++ r)) = .ok tx := h
        cases hb : buildTx ln auth rest with
        | error e => rw [hb] at h; exact absurd h (by simp)
        | ok r =>
          rcases List.mem_cons.mp hm with heq | hm'
          · injection heq with h1 h2
            subst h1
            subst h2
            exact ⟨cc0, hvc⟩
          · exact ih hb hm' hg
    · rw [if_neg hc] at h
      rcases List.mem_cons.mp hm with heq | hm'
      · exfalso
        injection heq with h1 h2
        subst h1
        exact hc hg
      · exact ih h hm' hg

theorem buildTx_mem {ln : LocalNode} {auth : RemoteNodeAuth} :
    ∀ {l : List (Volume × LatestSnapshots)} {tx : List Snapshot},
      buildTx ln auth l = .ok tx → ∀ s : Snapshot,
        s ∈ tx ↔ ∃ v tips, (v, tips) ∈ l ∧
          (v ∈ auth.pull ∨ v.node_name = auth.node_name) ∧
          ∃ cc, volContrib ln auth v tips = .ok cc ∧ s ∈ cc := by
  intro l
  induction l with
  | nil =>
    intro tx h s
    rw [buildTx] at h
    replace h : (Except.ok [] : Except LocalNodeError (List Snapshot)) = .ok tx := h
    injection h with h'
    subst h'
    simp
  | cons x rest ih =>
    intro tx h s
    obtain ⟨w, wtips⟩ := x
    rw [buildTx] at h
    by_cases hc : w ∈ auth.pull ∨ w.node_name = auth.node_name
    · rw [if_pos hc] at h
      cases hvc : volContrib ln auth w wtips with
      | error e => rw [hvc] at h; exact absurd h (by simp)
      | ok cc0 =>
        rw [hvc] at h
        replace h : (match buildTx ln auth rest with
          | .error e => (Except.error e : Except LocalNodeError (List Snapshot))
          | .ok r => .ok (cc0 ++ r)) = .ok tx := h
        cases hb : buildTx ln auth rest with
        | error e => rw [hb] at h; exact absurd h (by simp)
        | ok r =>
          rw [hb] at h
          injection h with h'
          subst h'
          constructor
          · intro hs
            rcases List.mem_append.mp hs with hs | hs
            · exact ⟨w, wtips, List.mem_cons_self _ _, hc, cc0, hvc, hs⟩
            · obtain ⟨v, tips, hm, hg, cc, hvcc, hsc⟩ := (ih hb s).mp hs
              exact ⟨v, tips, List.mem_cons_of_mem _ hm, hg, cc, hvcc, hsc⟩
          · rintro ⟨v, tips, hm, hg, cc, hvcc, hsc⟩
            rcases List.mem_cons.mp hm with heq | hm'
            · injection heq with h1 h2
              subst h1
              subst h2
              rw [hvc] at hvcc
              injection hvcc with h2'
              subst h2'
              exact List.mem_append.mpr (Or.inl hsc)
            · exact List.mem_append.mpr (Or.inr ((ih hb s).mpr ⟨v, tips, hm', hg, cc, hvcc, hsc⟩))
    · rw [if_neg hc] at h
      rw [ih h s]
      constructor
      · rintro ⟨v, tips, hm, hg, cc, hvcc, hsc⟩
        exact ⟨v, tips, List.mem_cons_of_mem _ hm, hg, cc, hvcc, hsc⟩
      · rintro ⟨v, tips, hm, hg, cc, hvcc, hsc⟩
        rcases List.mem_cons.mp hm with heq | hm'
        · exfalso
          injection heq with h1 h2
          subst h1
          exact hc hg
        · exact ⟨v, tips, hm', hg, cc, hvcc, hsc⟩

/-- C5: in the `handle_client` outbound plan, for each volume of the remote
`SyncInfo` owned by the connecting peer, the batch contains the single
locally-stored latest full backup of that volume if and only if its `taken`
strictly exceeds the remote `last_full` tip, plus exactly the incremental
backups with `taken > max(max(remote last_full, latest full backup taken),
remote last_incremental)`.  Hypotheses: the plan was built successfully, the
remote map has no duplicate volumes, the peer is a different node, and the
snapshot directory holds only snapshots of the local node. -/
theorem c5_handle_client_plan (ln : LocalNode) (auth : RemoteNodeAuth)
    (remote : List (Volume × LatestSnapshots)) (tx : List Snapshot)
    (v : Volume) (tips : LatestSnapshots)
    (htx : buildTx ln auth remote = .ok tx)
    (hmem : (v, tips) ∈ remote)
    (hown : v.node_name = auth.node_name)
    (hnd : (remote.map Prod.fst).Nodup)
    (hclean : ∀ e ∈ ln.snapshotDirEntries, ∀ s, Snapshot.fromString e = .ok s →
      s.node_name = ln.node_name) :
    ∃ lf bs, ln.latest_backup_full v = .ok lf ∧ ln.all_backups (some v) = .ok bs ∧
      (∀ s : Snapshot, s.is_of_volume v → s.is_incremental = false →
        (s ∈ tx ↔ s = lf ∧ dtLt tips.last_full lf.taken)) ∧
      (∀ s : Snapshot, s.is_of_volume v → s.is_incremental = true →
        (s ∈ tx ↔ s ∈ bs ∧
          dtLt (dtMax (dtMax tips.last_full lf.taken) tips.last_incremental) s.taken)) := by
  have hguard : v ∈ auth.pull ∨ v.node_name = auth.node_name := Or.inr hown
  obtain ⟨cc, hcc⟩ := buildTx_contrib_ok htx hmem hguard
  cases hlf : ln.latest_backup_full v with
  | error e =>
    exfalso
    rw [volContrib, if_pos hown, hlf] at hcc
    exact absurd hcc (by simp)
  | ok lf =>
    obtain ⟨bs, hbs, hmx⟩ := latest_backup_full_inv hlf
    have hccEq := volContrib_peer_eq tips hown hlf hbs
    have hshape : cc = (if dtLt tips.last_full lf.taken then [lf] else []) ++
        bs.filter (fun b => b.is_incremental &&
          decide (dtLt (dtMax (dtMax tips.last_full lf.taken) tips.last_incremental)
            b.taken)) := by
      have h' := hccEq.symm.trans hcc
      injection h' with hval
      exact hval.symm
    have hlfbs : lf ∈ bs := (List.mem_filter.mp (rustMaxByTaken_mem hmx)).1
    have hlffull : lf.is_incremental = false := by
      simpa using (List.mem_filter.mp (rustMaxByTaken_mem hmx)).2
    have hsv : ∀ s : Snapshot, s.is_of_volume v → (s ∈ tx ↔ s ∈ cc) := by
      intro s hofv
      rw [buildTx_mem htx s]
      constructor
      · rintro ⟨v', tips', hm', hg', cc', hvcc', hsc'⟩
        obtain rfl : v' = v :=
          is_of_volume_unique (volContrib_of_volume hclean hvcc' s hsc') hofv
        obtain rfl : tips' = tips := nodup_key_unique hnd hm' hmem
        rw [hcc] at hvcc'
        injection hvcc' with h2'
        subst h2'
        exact hsc'
      · intro hsc
        exact ⟨v, tips, hmem, hguard, cc, hcc, hsc⟩
    refine ⟨lf, bs, rfl, hbs, ?_, ?_⟩
    · intro s hofv hfull
      rw [hsv s hofv, hshape]
      constructor
      · intro hs
        rcases List.mem_append.mp hs with hs | hs
        · by_cases hc : dtLt tips.last_full lf.taken
          · rw [if_pos hc] at hs
            exact ⟨by simpa using hs, hc⟩
          · rw [if_neg hc] at hs
            simp at hs
        · exfalso
          have hcond := (List.mem_filter.mp hs).2
          simp only [Bool.and_eq_true, decide_eq_true_eq] at hcond
          rw [hfull] at hcond
          exact Bool.false_ne_true hcond.1
      · rintro ⟨rfl, hc⟩
        refine List.mem_append.mpr (Or.inl ?_)
        rw [if_pos hc]
        simp
    · intro s hofv hincr
      rw [hsv s hofv, hshape]
      constructor
      · intro hs
        rcases List.mem_append.mp hs with hs | hs
        · exfalso
          have hslf : s = lf := by
            by_cases hc : dtLt tips.last_full lf.taken
            · rw [if_pos hc] at hs; simpa using hs
            · rw [if_neg hc] at hs; simp at hs
          subst hslf
          rw [hincr] at hlffull
          simp at hlffull
        · have hcond := (List.mem_filter.mp hs).2
          simp only [Bool.and_eq_true, decide_eq_true_eq] at hcond
          exact ⟨(List.mem_filter.mp hs).1, hcond.2⟩
      · rintro ⟨hsbs, hdt⟩
        refine List.mem_append.mpr (Or.inr (List.mem_filter.mpr ⟨hsbs, ?_⟩))
        simp [hincr, hdt]

/-- Witness for C5 at concrete inputs. -/
theorem c5_handle_client_plan_witness :
    ∃ lf bs, exPeerNode.latest_backup_full exVol = .ok lf ∧
      exPeerNode.all_backups (some exVol) = .ok bs ∧
      (∀ s : Snapshot, s.is_of_volume exVol → s.is_incremental = false →
        (s ∈ exTx ↔ s = lf ∧ dtLt exTips.last_full lf.taken)) ∧
      (∀ s : Snapshot, s.is_of_volume exVol → s.is_incremental = true →
        (s ∈ exTx ↔ s ∈ bs ∧
          dtLt (dtMax (dtMax exTips.last_full lf.taken) exTips.last_incremental) s.taken)) :=
  c5_handle_client_plan exPeerNode exAuth exRemote exTx exVol exTips (by rfl)
    (List.mem_cons_self _ _) (by rfl) (by decide)
    (fun e he => absurd he (List.not_mem_nil e))

/-- C3: in the mutual challenge/response handshake, whenever a proof check
fails — the client finds the server proof unequal to
`HMAC(derive_key(verifier, passphrase), client_challenge)`, the server has
no grant matching the client name, or the server finds the client proof
unequal to `HMAC(grant.key, server_challenge)` — the checking side sends the
appropriate error-bearing reply (`ClientAuth(Err AccessDenied)`,
`ServerAuth(Err AccessDenied)`, `Encrypt(Err AccessDenied)` respectively)
and fails with `Unauthorized`; the result is an error, so no `StreamConn`
is ever constructed. -/
theorem c3_handshake_denies (prims : CryptoPrims) :
    (∀ (nodeName remoteName : String) (challenge nonce pw : List Nat) (sa : ServerAuth)
        (m2 : CryptoMessage),
      sa.proof ≠ prims.hmac (deriveKey prims sa.verifier pw) challenge →
      clientSecureStream prims nodeName remoteName challenge nonce pw
          (.serverAuth (.ok sa)) m2 =
        ([.hello ⟨nodeName, challenge, nonce⟩, .clientAuth (.error .accessDenied)],
          .error (.remote .unauthorized))) ∧
    (∀ (storage : List RemoteNodeAuth) (challenge : List Nat) (h : Hello)
        (m2 : CryptoMessage),
      storage.find? (fun rna => rna.node_name == h.node_name) = none →
      serverSecureStream prims storage challenge (.hello h) m2 =
        ([.serverAuth (.error .accessDenied)], .error (.remote .unauthorized))) ∧
    (∀ (storage : List RemoteNodeAuth) (challenge : List Nat) (h : Hello)
        (auth : RemoteNodeAuth) (ca : ClientAuth),
      storage.find? (fun rna => rna.node_name == h.node_name) = some auth →
      ca.proof ≠ prims.hmac auth.key challenge →
      serverSecureStream prims storage challenge (.hello h) (.clientAuth (.ok ca)) =
        ([.serverAuth (.ok ⟨auth.verifier, challenge, prims.hmac auth.key h.challenge⟩),
            .encrypt (.error .accessDenied)],
          .error (.remote .unauthorized))) := by
  refine ⟨?_, ?_, ?_⟩
  · intro nodeName remoteName challenge nonce pw sa m2 hne
    rw [clientSecureStream]
    simp only [if_neg hne]
  · intro storage challenge h m2 hfind
    rw [serverSecureStream, hfind]
  · intro storage challenge h auth ca hfind hne
    rw [serverSecureStream, hfind]
    simp only [if_neg hne]
    rfl

/-- Witness for C3 at concrete inputs: a client-side proof mismatch, a
missing grant, and a server-side proof mismatch. -/
theorem c3_handshake_denies_witness :
    clientSecureStream refPrims "c" "s" [1] [2] [] (.serverAuth (.ok ⟨[3], [4], [9]⟩))
        (.encrypt (.ok ())) =
      ([.hello ⟨"c", [1], [2]⟩, .clientAuth (.error .accessDenied)],
        .error (.remote .unauthorized)) ∧
    serverSecureStream refPrims [] [1] (.hello ⟨"x", [1], [2]⟩) (.clientAuth (.ok ⟨[9]⟩)) =
      ([.serverAuth (.error .accessDenied)], .error (.remote .unauthorized)) ∧
    serverSecureStream refPrims [⟨"x", [5], [6], [], []⟩] [1] (.hello ⟨"x", [1], [2]⟩)
        (.clientAuth (.ok ⟨[9]⟩)) =
      ([.serverAuth (.ok ⟨[5], [1], [6, 1]⟩), .encrypt (.error .accessDenied)],
        .error (.remote .unauthorized)) :=
  ⟨(c3_handshake_denies refPrims).1 "c" "s" [1] [2] [] ⟨[3], [4], [9]⟩ (.encrypt (.ok ()))
      (by decide),
    (c3_handshake_denies refPrims).2.1 [] [1] ⟨"x", [1], [2]⟩ (.clientAuth (.ok ⟨[9]⟩)) rfl,
    (c3_handshake_denies refPrims).2.2 [⟨"x", [5], [6], [], []⟩] [1] ⟨"x", [1], [2]⟩
      ⟨"x", [5], [6], [], []⟩ ⟨[9]⟩ (by rfl) (by decide)⟩

/-- C4 (amended): when a `Replicate` names a push-authorized snapshot whose
`backup_path` already exists and no reception is in progress, `rx_setup`
returns `Immutable` before creating, opening or writing any file, the
receiver replies `Stream(Err Immutable)`, the session fails, and the file
system — in particular the existing backup file — is unchanged from that
point on (the remaining messages are not processed). -/
theorem c4_immutable_amended (cfg : RxConfig) (st : RxState) (s : Snapshot)
    (ms : List StreamMessage)
    (hsink : st.sink = none)
    (hauth : pushAuthorized cfg s)
    (hex : fsExists st.fs s.backupPathS = true) :
    rxSetup cfg st.fs s = .error .immutable ∧
      runRx cfg st (.replicate s :: ms) =
        ([.stream (.error .immutable)], st, some (.remote .immutable)) := by
  have hrx : rxSetup cfg st.fs s = .error .immutable := by
    rw [rxSetup, if_neg (not_not_intro hauth), if_pos hex]
  refine ⟨hrx, ?_⟩
  rw [runRx, handleMsg, hsink, hrx]

/-- C4 counterexample: the backup path of the announced snapshot exists on
the receiver, yet `rx_setup` returns `AccessDenied` — not `Immutable` — and
the reply is `Stream(Err AccessDenied)`, because the push-authorization
check precedes the immutability check and the push grant is empty. -/
theorem c4_counterexample :
    fsExists c4St.fs c4Snap.backupPathS = true ∧
      runRx c4Cfg c4St [.replicate c4Snap] =
        ([.stream (.error .accessDenied)], c4St, some (.remote .accessDenied)) := by
  exact ⟨rfl, rfl⟩

/-- Witness for the amended C4 at concrete inputs. -/
theorem c4_immutable_amended_witness :
    rxSetup ⟨"srv", [⟨"peer", "data"⟩]⟩ [(c4Snap.backupPathS, [7])] c4Snap =
        .error .immutable ∧
      runRx ⟨"srv", [⟨"peer", "data"⟩]⟩ ⟨[(c4Snap.backupPathS, [7])], none⟩
          [.replicate c4Snap] =
        ([.stream (.error .immutable)], ⟨[(c4Snap.backupPathS, [7])], none⟩,
          some (.remote .immutable)) :=
  c4_immutable_amended ⟨"srv", [⟨"peer", "data"⟩]⟩ ⟨[(c4Snap.backupPathS, [7])], none⟩
    c4Snap [] rfl ⟨⟨"peer", "data"⟩, by decide, by decide, by decide⟩ (by rfl)

/-- C8 (amended): when a read from the batch item's byte source fails, the
transmit task sends **no** message at all — in particular no `End` of any
kind (the `RemoteError` type has no `TxError` variant) — and aborts with the
underlying I/O error. -/
theorem c8_read_error_amended (pre : List (List Nat)) (e : Nat)
    (hne : ∀ c ∈ pre, c ≠ []) :
    txStreamItem (pre.map Except.ok ++ [Except.error e]) =
      (pre.map StreamMessage.chunk, .error (.ioErr e)) := by
  induction pre with
  | nil => rfl
  | cons c cs ih =>
    have hc : c ≠ [] := hne c (List.mem_cons_self _ _)
    simp only [List.map_cons, List.cons_append, txStreamItem, sendChunk, if_pos hc,
      List.append_eq, List.nil_append]
    rw [ih (fun x hx => hne x (List.mem_cons_of_mem _ hx))]

/-- Witness for the amended C8 at concrete inputs. -/
theorem c8_read_error_amended_witness :
    txStreamItem [Except.ok [1], Except.error 7] =
      ([StreamMessage.chunk [1]], .error (.ioErr 7)) :=
  c8_read_error_amended [[1]] 7 (by decide)

/-- C8 counterexample: on a local read error the transmit task sends nothing
— there is no `End(Err TxError)`; indeed no message is sent at all, and the
task aborts with the underlying I/O error. -/
theorem c8_counterexample :
    sendChunk (.error 5) = ([], .error (.ioErr 5)) ∧
      ∀ m ∈ (sendChunk (.error 5)).1, False := by
  refine ⟨rfl, ?_⟩
  intro m hm
  exact absurd hm (List.not_mem_nil m)

/-- The code point of a rendered digit is `48 + n % 10`. -/
theorem digitChar_toNat (n : Nat) : (digitChar n).toNat = 48 + n % 10 := by
  have h : n % 10 < 10 := Nat.mod_lt _ (by norm_num)
  unfold digitChar
  generalize n % 10 = r at h ⊢
  interval_cases r <;> rfl

/-- Rendered digits are digit characters. -/
theorem isDigitChar_digitChar (n : Nat) : isDigitChar (digitChar n) := by
  unfold isDigitChar
  rw [digitChar_toNat]
  omega

theorem decide_isDigitChar_digitChar (n : Nat) :
    decide (isDigitChar (digitChar n)) = true :=
  decide_eq_true (isDigitChar_digitChar n)

/-- Numeric value of a rendered digit. -/
theorem charVal_digitChar (n : Nat) : charVal (digitChar n) = n % 10 := by
  unfold charVal
  rw [digitChar_toNat]
  omega

/-- Every character of a timestamp rendering is a decimal digit. -/
theorem mem_fmtTimestamp {c : Char} {d : DateTime} (h : c ∈ fmtTimestamp d) :
    48 ≤ c.toNat ∧ c.toNat ≤ 57 := by
  simp only [fmtTimestamp, pad4, pad2, List.mem_append, List.mem_cons,
    List.not_mem_nil, or_false] at h
  rcases h with (((((h | h | h | h) | h | h) | h | h) | h | h) | h | h) | h | h <;>
    (subst h; rw [digitChar_toNat]; omega)

/-- No underscore occurs in a timestamp rendering. -/
theorem underscore_not_mem_fmtTimestamp (d : DateTime) : '_' ∉ fmtTimestamp d := by
  intro h
  have hb := mem_fmtTimestamp h
  have : ('_').toNat = 95 := rfl
  omega

/-- No slash occurs in a timestamp rendering. -/
theorem slash_not_mem_fmtTimestamp (d : DateTime) : '/' ∉ fmtTimestamp d := by
  intro h
  have hb := mem_fmtTimestamp h
  have : ('/').toNat = 47 := rfl
  omega

/-- Month lengths never exceed 31 days. -/
theorem daysInMonth_le (y : Int) (m : Nat) : daysInMonth y m ≤ 31 := by
  unfold daysInMonth
  split
  · split <;> norm_num
  · split <;> norm_num

/-- Parsing fourteen rendered digits recovers the encoded fields, subject to
calendar validation. -/
theorem parseTimestamp_digits (y mo da ho mi se : Nat) (hy : y ≤ 9999)
    (hmo : mo ≤ 99) (hda : da ≤ 99) (hho : ho ≤ 99) (hmi : mi ≤ 99) (hse : se ≤ 99) :
    parseTimestamp [digitChar (y / 1000), digitChar (y / 100), digitChar (y / 10),
        digitChar y, digitChar (mo / 10), digitChar mo, digitChar (da / 10), digitChar da,
        digitChar (ho / 10), digitChar ho, digitChar (mi / 10), digitChar mi,
        digitChar (se / 10), digitChar se] =
      (if validDate ⟨Int.ofNat y, mo, da, ho, mi, se⟩
        then some ⟨Int.ofNat y, mo, da, ho, mi, se⟩ else none) := by
  simp only [parseTimestamp, List.all_cons, List.all_nil, Bool.and_true,
    decide_isDigitChar_digitChar, Bool.and_self, if_true, charVal_digitChar]
  have e0 : ((y / 1000 % 10 * 10 + y / 100 % 10) * 10 + y / 10 % 10) * 10 + y % 10 = y := by
    omega
  have e1 : mo / 10 % 10 * 10 + mo % 10 = mo := by omega
  have e2 : da / 10 % 10 * 10 + da % 10 = da := by omega
  have e3 : ho / 10 % 10 * 10 + ho % 10 = ho := by omega
  have e4 : mi / 10 % 10 * 10 + mi % 10 = mi := by omega
  have e5 : se / 10 % 10 * 10 + se % 10 = se := by omega
  rw [e0, e1, e2, e3, e4, e5]

/-- Printing then parsing a representable timestamp is the identity. -/
theorem parseTimestamp_fmtTimestamp (d : DateTime) (h : representable d) :
    parseTimestamp (fmtTimestamp d) = some d := by
  obtain ⟨y, mo, da, ho, mi, se⟩ := d
  obtain ⟨hy0, hy9, hv⟩ := h
  obtain ⟨hm1, hm12, hd1, hdm, hh, hmin, hsec⟩ := hv
  dsimp only at hy0 hy9 hm1 hm12 hd1 hdm hh hmin hsec
  have hda31 : da ≤ 31 := le_trans hdm (daysInMonth_le y mo)
  have hfmt : fmtTimestamp ⟨y, mo, da, ho, mi, se⟩ =
      [digitChar (y.toNat / 1000), digitChar (y.toNat / 100), digitChar (y.toNat / 10),
        digitChar y.toNat, digitChar (mo / 10), digitChar mo, digitChar (da / 10),
        digitChar da, digitChar (ho / 10), digitChar ho, digitChar (mi / 10), digitChar mi,
        digitChar (se / 10), digitChar se] := rfl
  rw [hfmt, parseTimestamp_digits y.toNat mo da ho mi se (by omega) (by omega) (by omega)
    (by omega) (by omega) (by omega)]
  have hiy : Int.ofNat y.toNat = y := Int.toNat_of_nonneg hy0
  rw [hiy]
  exact if_pos ⟨hm1, hm12, hd1, hdm, hh, hmin, hsec⟩

/-- The character decomposition of a snapshot's display form. -/
theorem snapshot_toStr_data (nn sv : String) (inc : Bool) (tk : DateTime) :
    (Snapshot.toStr ⟨nn, sv, inc, tk⟩).data =
      nn.data ++ '_' :: (sv.data ++ '_' ::
        ((if inc then "incr" else "full").data ++ '_' :: fmtTimestamp tk)) := by
  have hus : ("_" : String).data = ['_'] := rfl
  have hmk : (String.mk (fmtTimestamp tk)).data = fmtTimestamp tk := rfl
  simp only [Snapshot.toStr, String.data_append, hus, hmk, List.append_assoc,
    List.cons_append, List.nil_append]

/-- Splitting the display form of a snapshot on underscores yields exactly
its four fields when the names are underscore-free. -/
theorem snapshot_toStr_split (nn sv : String) (inc : Bool) (tk : DateTime)
    (hnu : '_' ∉ nn.data) (hsu : '_' ∉ sv.data) :
    splitOnChar '_' (Snapshot.toStr ⟨nn, sv, inc, tk⟩).data =
      [nn.data, sv.data, (if inc then "incr" else "full").data, fmtTimestamp tk] := by
  have hty : '_' ∉ (if inc then "incr" else "full").data := by cases inc <;> decide
  rw [snapshot_toStr_data, splitOnChar_append, splitOnChar_of_not_mem hnu,
    splitOnChar_append, splitOnChar_of_not_mem hsu, splitOnChar_append,
    splitOnChar_of_not_mem hty, splitOnChar_of_not_mem (underscore_not_mem_fmtTimestamp tk)]
  rfl

/-- Print/parse identity for snapshots with underscore-free names and a
representable timestamp. -/
theorem fromString_toStr (s : Snapshot)
    (hnu : '_' ∉ s.node_name.data) (hsu : '_' ∉ s.subvol.data)
    (ht : representable s.taken) :
    Snapshot.fromString s.toStr = .ok s := by
  obtain ⟨nn, sv, inc, tk⟩ := s
  dsimp only at hnu hsu ht
  unfold Snapshot.fromString
  rw [snapshot_toStr_split nn sv inc tk hnu hsu]
  cases inc
  · show ((match parseTimestamp (fmtTimestamp tk) with
      | none => Except.error SnapshotParseError.malformedTimeTaken
      | some taken =>
        Except.ok (Snapshot.mk (String.mk nn.data) (String.mk sv.data) false taken)) :
          Except SnapshotParseError Snapshot) =
        Except.ok (Snapshot.mk nn sv false tk)
    rw [parseTimestamp_fmtTimestamp tk ht]
  · show ((match parseTimestamp (fmtTimestamp tk) with
      | none => Except.error SnapshotParseError.malformedTimeTaken
      | some taken =>
        Except.ok (Snapshot.mk (String.mk nn.data) (String.mk sv.data) true taken)) :
          Except SnapshotParseError Snapshot) =
        Except.ok (Snapshot.mk nn sv true tk)
    rw [parseTimestamp_fmtTimestamp tk ht]

/-- Print/parse identity for volumes with underscore-free names. -/
theorem volume_fromString_toStr (v : Volume)
    (hnu : '_' ∉ v.node_name.data) (hsu : '_' ∉ v.subvol.data) :
    Volume.fromString v.toStr = .ok v := by
  obtain ⟨nn, sv⟩ := v
  dsimp only at hnu hsu
  have hus : ("_" : String).data = ['_'] := rfl
  have hdata : (Volume.toStr ⟨nn, sv⟩).data = nn.data ++ '_' :: sv.data := by
    simp only [Volume.toStr, String.data_append, hus, List.append_assoc,
      List.cons_append, List.nil_append]
  unfold Volume.fromString
  rw [hdata, splitOnChar_append, splitOnChar_of_not_mem hnu, splitOnChar_of_not_mem hsu]
  rfl

/-- The display form always contains an underscore. -/
theorem underscore_mem_toStr (nn sv : String) (inc : Bool) (tk : DateTime) :
    '_' ∈ (Snapshot.toStr ⟨nn, sv, inc, tk⟩).data := by
  rw [snapshot_toStr_data]
  simp

/-- The display form is slash-free when the names are. -/
theorem slash_not_mem_toStr (nn sv : String) (inc : Bool) (tk : DateTime)
    (hns : '/' ∉ nn.data) (hss : '/' ∉ sv.data) :
    '/' ∉ (Snapshot.toStr ⟨nn, sv, inc, tk⟩).data := by
  rw [snapshot_toStr_data]
  intro h
  simp only [List.mem_append, List.mem_cons] at h
  rcases h with h | h | h | h | h | h | h
  · exact hns h
  · exact absurd h (by decide)
  · exact hss h
  · exact absurd h (by decide)
  · revert h; cases inc <;> decide
  · exact absurd h (by decide)
  · exact slash_not_mem_fmtTimestamp tk h

/-- A slash-free, non-trivial file name is its own final path component. -/
theorem pathFileName_single (s : String) (hs : '/' ∉ s.data) (hne : s.data ≠ [])
    (h1 : s.data ≠ ['.']) (h2 : s.data ≠ ['.', '.']) :
    pathFileName s = some s := by
  unfold pathFileName
  rw [splitOnChar_of_not_mem hs]
  simp [hne, h1, h2]

/-- Appending a slash-free, non-trivial file name after a slash makes it the
final path component. -/
theorem pathFileName_concat (a : List Char) (s : String) (hs : '/' ∉ s.data)
    (hne : s.data ≠ []) (h1 : s.data ≠ ['.']) (h2 : s.data ≠ ['.', '.']) :
    pathFileName (String.mk (a ++ '/' :: s.data)) = some s := by
  unfold pathFileName
  have hd : (String.mk (a ++ '/' :: s.data)).data = a ++ '/' :: s.data := rfl
  rw [hd, splitOnChar_append, List.filter_append, splitOnChar_of_not_mem hs]
  simp [hne, h1, h2, List.getLast?_concat]

/-- Joining any directory with a slash-free, non-trivial file name and taking
the file name back is the identity. -/
theorem pathFileName_pathJoin (dir s : String) (hs : '/' ∉ s.data)
    (hne : s.data ≠ []) (h1 : s.data ≠ ['.']) (h2 : s.data ≠ ['.', '.']) :
    pathFileName (pathJoin dir s) = some s := by
  have hh : headIsSlash s = false := by
    unfold headIsSlash
    cases hc : s.data with
    | nil => rfl
    | cons c cs =>
      have hcne : (c == '/') = false := by
        apply beq_eq_false_iff_ne.mpr
        intro h
        apply hs
        rw [hc, h]
        exact List.mem_cons_self _ _
      simp [hcne]
  unfold pathJoin
  rw [hh]
  simp only [Bool.false_eq_true, if_false]
  by_cases hdir : dir = ""
  · rw [if_pos hdir]
    exact pathFileName_single s hs hne h1 h2
  · rw [if_neg hdir]
    by_cases hl : lastIsSlash dir = true
    · rw [if_pos hl]
      obtain ⟨a, ha⟩ : ∃ a, dir.data = a ++ ['/'] := by
        unfold lastIsSlash at hl
        cases hg : dir.data.getLast? with
        | none => rw [hg] at hl; exact absurd hl (by simp)
        | some c =>
          rw [hg] at hl
          have hc : c = '/' := by simpa using hl
          obtain ⟨a, ha⟩ := List.getLast?_eq_some_iff.mp hg
          exact ⟨a, by rw [ha, hc]⟩
      have hd : (dir ++ s).data = a ++ '/' :: s.data := by
        rw [String.data_append, ha]
        simp
      have he : dir ++ s = String.mk (a ++ '/' :: s.data) := congrArg String.mk hd
      rw [he]
      exact pathFileName_concat a s hs hne h1 h2
    · rw [if_neg hl]
      have hd : (dir ++ "/" ++ s).data = dir.data ++ '/' :: s.data := by
        rw [String.data_append, String.data_append]
        simp
      have he : dir ++ "/" ++ s = String.mk (dir.data ++ '/' :: s.data) :=
        congrArg String.mk hd
      rw [he]
      exact pathFileName_concat dir.data s hs hne h1 h2

/-- Path print/parse identity for snapshots with underscore- and slash-free
names and a representable timestamp, joined under any directory. -/
theorem fromPath_pathJoin (dir : String) (s : Snapshot)
    (hnu : '_' ∉ s.node_name.data) (hsu : '_' ∉ s.subvol.data)
    (hns : '/' ∉ s.node_name.data) (hss : '/' ∉ s.subvol.data)
    (ht : representable s.taken) :
    Snapshot.fromPath (pathJoin dir s.toStr) = .ok s := by
  obtain ⟨nn, sv, inc, tk⟩ := s
  dsimp only at hnu hsu hns hss ht
  have hu : '_' ∈ (Snapshot.toStr ⟨nn, sv, inc, tk⟩).data := underscore_mem_toStr nn sv inc tk
  have hslash : '/' ∉ (Snapshot.toStr ⟨nn, sv, inc, tk⟩).data :=
    slash_not_mem_toStr nn sv inc tk hns hss
  have hne : (Snapshot.toStr ⟨nn, sv, inc, tk⟩).data ≠ [] := by
    intro h; rw [h] at hu; exact List.not_mem_nil _ hu
  have h1 : (Snapshot.toStr ⟨nn, sv, inc, tk⟩).data ≠ ['.'] := by
    intro h; rw [h] at hu; revert hu; decide
  have h2 : (Snapshot.toStr ⟨nn, sv, inc, tk⟩).data ≠ ['.', '.'] := by
    intro h; rw [h] at hu; revert hu; decide
  unfold Snapshot.fromPath
  rw [pathFileName_pathJoin dir _ hslash hne h1 h2]
  exact fromString_toStr ⟨nn, sv, inc, tk⟩ hnu hsu ht

/-- C9 (amended): for every `Snapshot` and `Volume` whose node and subvolume
names are non-empty and contain no underscore, parsing the canonical string
form yields a value equal to the original; if in addition the snapshot's
names contain no slash (and its timestamp is representable in
`%Y%m%d%H%M%S`), parsing the path obtained by joining any directory with the
snapshot's string form also yields an equal value. -/
theorem c9_roundtrip_amended (s : Snapshot) (v : Volume) (dir : String)
    (hn : s.node_name ≠ "") (hsv : s.subvol ≠ "")
    (hnu : '_' ∉ s.node_name.data) (hsu : '_' ∉ s.subvol.data)
    (hns : '/' ∉ s.node_name.data) (hss : '/' ∉ s.subvol.data)
    (ht : representable s.taken)
    (hvn : v.node_name ≠ "") (hvs : v.subvol ≠ "")
    (hvnu : '_' ∉ v.node_name.data) (hvsu : '_' ∉ v.subvol.data) :
    Snapshot.fromString s.toStr = .ok s ∧
      Snapshot.fromPath (pathJoin dir s.toStr) = .ok s ∧
      Volume.fromString v.toStr = .ok v :=
  ⟨fromString_toStr s hnu hsu ht,
    fromPath_pathJoin dir s hnu hsu hns hss ht,
    volume_fromString_toStr v hvnu hvsu⟩

/-- Witness for the amended C9 at concrete inputs. -/
theorem c9_roundtrip_amended_witness :
    Snapshot.fromString (Snapshot.toStr ⟨"node", "sub", true, ⟨2024, 12, 31, 23, 59, 59⟩⟩) =
        .ok ⟨"node", "sub", true, ⟨2024, 12, 31, 23, 59, 59⟩⟩ ∧
      Snapshot.fromPath (pathJoin "/mnt/x"
          (Snapshot.toStr ⟨"node", "sub", true, ⟨2024, 12, 31, 23, 59, 59⟩⟩)) =
        .ok ⟨"node", "sub", true, ⟨2024, 12, 31, 23, 59, 59⟩⟩ ∧
      Volume.fromString (Volume.toStr ⟨"nd", "sv"⟩) = .ok ⟨"nd", "sv"⟩ :=
  c9_roundtrip_amended ⟨"node", "sub", true, ⟨2024, 12, 31, 23, 59, 59⟩⟩ ⟨"nd", "sv"⟩
    "/mnt/x" (by decide) (by decide) (by decide) (by decide) (by decide) (by decide)
    (by decide) (by decide) (by decide) (by decide) (by decide)

/-- C9 counterexample: the subvolume name `a/b` is non-empty and contains no
underscore, yet parsing the path obtained by joining a directory with the
snapshot's canonical string form fails with `MissingTimeTaken` instead of
returning the original snapshot, because the slash starts a new path
component and the file name retains only the trailing `b_full_...` part. -/
theorem c9_counterexample :
    ("n" : String) ≠ "" ∧ ("a/b" : String) ≠ "" ∧
      '_' ∉ ("n" : String).data ∧ '_' ∉ ("a/b" : String).data ∧
      representable ⟨2024, 1, 1, 0, 0, 0⟩ ∧
      Snapshot.fromPath
          (pathJoin "d" (Snapshot.toStr ⟨"n", "a/b", false, ⟨2024, 1, 1, 0, 0, 0⟩⟩)) =
        .error .missingTimeTaken :=
  ⟨by decide, by decide, by decide, by decide, by decide, by rfl⟩

/-- C10: the snapshot string parser silently discards every token after the
fourth: `node_sub_full_20240101000000_extra` parses successfully, the parsed
value prints as `node_sub_full_20240101000000`, the two strings differ, and
the shortened form parses to the same value — so parsing is not injective
and parse-then-print is not the identity on such inputs. -/
theorem c10_extra_tokens :
    Snapshot.fromString "node_sub_full_20240101000000_extra" =
        .ok ⟨"node", "sub", false, ⟨2024, 1, 1, 0, 0, 0⟩⟩ ∧
      Snapshot.toStr ⟨"node", "sub", false, ⟨2024, 1, 1, 0, 0, 0⟩⟩ =
        "node_sub_full_20240101000000" ∧
      ("node_sub_full_20240101000000_extra" : String) ≠ "node_sub_full_20240101000000" ∧
      Snapshot.fromString "node_sub_full_20240101000000" =
        .ok ⟨"node", "sub", false, ⟨2024, 1, 1, 0, 0, 0⟩⟩ :=
  ⟨by rfl, by rfl, by decide, by rfl⟩
